import Mathlib

/-!
Verification development for the magnetize repository: a shallow embedding of
the CID codec (src/cid.rs), magnet links (src/magnet.rs), URL utilities
(src/url.rs and the url crate operations the code relies on), the integrity
fetcher (src/request.rs, src/bin/main.rs) and the federation server's trust
check, notify handler and gossip worker selection (src/peers.rs,
src/server.rs, src/util.rs).

Rust strings are modelled as lists of bytes (`List Nat`, each element < 256
on reachable values); Rust `u8` is `Nat` kept below 256 by construction.
External crate operations (sha2, data_encoding base32, the url crate's
parse/join/origin, form-urlencoded query handling) are embedded faithfully
to their documented behavior, restricted to the fragments the repository
exercises; the restrictions are noted at each definition.
-/

/-- Byte strings: the model of Rust `String` / `&str` / `Vec<u8>`. -/
abbrev RStr : Type := List Nat

/-- Convert an ASCII Lean string literal to a byte string (used to write down
concrete inputs; all literals used are ASCII so `Char.toNat` is the byte). -/
def bstr (s : String) : RStr := s.data.map (fun c => c.toNat)

namespace Util

/-- From src/util.rs `random_choice`: shuffle the items, then truncate to
`max`. The random shuffle is modelled by passing the shuffled list in
explicitly; callers quantify over every permutation of the original items. -/
def random_choice {α : Type} (shuffled : List α) (max : Nat) : List α :=
  shuffled.take max

/-- From src/util.rs `group`: group key-value pairs by key.  `getGroup pairs k`
is the vector stored under key `k` in the resulting HashMap; the key is absent
from the map exactly when this list is empty (each present key maps to a
nonempty vector, since entries are only created by pushing a value). -/
def getGroup (pairs : List (RStr × RStr)) (k : RStr) : List RStr :=
  (pairs.filter (fun p => p.1 = k)).map (fun p => p.2)

end Util

namespace Bits

/-- The `k`-bit big-endian (most significant bit first) representation of `n`
(truncated modulo `2 ^ k`). -/
def natToBits : Nat → Nat → List Bool
  | 0, _ => []
  | k + 1, n => natToBits k (n / 2) ++ [decide (n % 2 = 1)]

/-- Read a big-endian bit list back as a natural number. -/
def bitsToNat (bs : List Bool) : Nat :=
  bs.foldl (fun acc b => 2 * acc + (if b then 1 else 0)) 0

theorem length_natToBits (k n : Nat) : (natToBits k n).length = k := by
  induction k generalizing n with
  | zero => rfl
  | succ k ih => simp [natToBits, ih]

theorem bitsToNat_append_single (ys : List Bool) (b : Bool) :
    bitsToNat (ys ++ [b]) = 2 * bitsToNat ys + (if b then 1 else 0) := by
  simp [bitsToNat, List.foldl_append]

theorem bitsToNat_lt (bs : List Bool) : bitsToNat bs < 2 ^ bs.length := by
  induction bs using List.reverseRecOn with
  | nil => norm_num [bitsToNat]
  | append_singleton ys b ih =>
      rw [bitsToNat_append_single]
      simp only [List.length_append, List.length_cons, List.length_nil, pow_succ]
      cases b <;> simp <;> omega

theorem two_mul_add_mod (a b m : Nat) (hb : b < 2) (hm : 0 < m) :
    (2 * a + b) % (2 * m) = 2 * (a % m) + b := by
  rw [Nat.add_mod, Nat.mul_mod_mul_left]
  have hb2 : b % (2 * m) = b := Nat.mod_eq_of_lt (by omega)
  rw [hb2]
  have ha : a % m < m := Nat.mod_lt _ hm
  exact Nat.mod_eq_of_lt (by omega)

theorem bitsToNat_natToBits (k n : Nat) : bitsToNat (natToBits k n) = n % 2 ^ k := by
  induction k generalizing n with
  | zero => simp [natToBits, bitsToNat, Nat.mod_one]
  | succ k ih =>
      rw [natToBits, bitsToNat_append_single, ih]
      have hif : (if decide (n % 2 = 1) then (1 : Nat) else 0) = n % 2 := by
        rcases Nat.mod_two_eq_zero_or_one n with h | h <;> simp [h]
      rw [hif]
      have hm : 0 < 2 ^ k := Nat.pos_pow_of_pos _ (by omega)
      have h1 : 2 ^ (k + 1) = 2 * 2 ^ k := by rw [pow_succ]; ring
      rw [h1, ← two_mul_add_mod (n / 2) (n % 2) (2 ^ k) (Nat.mod_lt _ (by omega)) hm]
      congr 1
      omega

theorem natToBits_bitsToNat (bs : List Bool) : natToBits bs.length (bitsToNat bs) = bs := by
  induction bs using List.reverseRecOn with
  | nil => rfl
  | append_singleton ys b ih =>
      rw [bitsToNat_append_single]
      simp only [List.length_append, List.length_cons, List.length_nil]
      rw [natToBits]
      have hdiv : (2 * bitsToNat ys + (if b then (1 : Nat) else 0)) / 2 = bitsToNat ys := by
        cases b <;> simp <;> omega
      have hmod : decide ((2 * bitsToNat ys + (if b then (1 : Nat) else 0)) % 2 = 1) = b := by
        cases b <;> simp [Nat.mul_add_mod]
      rw [hdiv, hmod, ih]

/-- Split a list into consecutive chunks of size `k` (the final chunk may be
shorter); returns `[]` when `k = 0`.  The fuel argument (initialized to the
list length, which the recursion never outruns) keeps the recursion
structural so the definition evaluates by kernel reduction. -/
def chunksAux {α : Type} (k : Nat) : Nat → List α → List (List α)
  | 0, _ => []
  | fuel + 1, l =>
      if l.length = 0 ∨ k = 0 then []
      else l.take k :: chunksAux k fuel (l.drop k)

def chunks {α : Type} (k : Nat) (l : List α) : List (List α) :=
  chunksAux k l.length l

theorem chunksAux_zero {α : Type} (k : Nat) (l : List α) : chunksAux k 0 l = [] := rfl

theorem chunksAux_succ {α : Type} (k fuel : Nat) (l : List α) :
    chunksAux k (fuel + 1) l =
      if l.length = 0 ∨ k = 0 then []
      else l.take k :: chunksAux k fuel (l.drop k) := rfl

theorem chunksAux_fuel {α : Type} (k : Nat) :
    ∀ f1 f2 (l : List α), l.length ≤ f1 → l.length ≤ f2 →
      chunksAux k f1 l = chunksAux k f2 l := by
  intro f1
  induction f1 with
  | zero =>
      intro f2 l h1 h2
      have : l = [] := List.eq_nil_of_length_eq_zero (by omega)
      subst this
      cases f2 with
      | zero => rfl
      | succ g =>
          rw [chunksAux_zero, chunksAux_succ]
          simp
  | succ f ih =>
      intro f2 l h1 h2
      cases f2 with
      | zero =>
          have : l = [] := List.eq_nil_of_length_eq_zero (by omega)
          subst this
          rw [chunksAux_zero, chunksAux_succ]
          simp
      | succ g =>
          rw [chunksAux_succ, chunksAux_succ]
          by_cases hc : l.length = 0 ∨ k = 0
          · rw [if_pos hc, if_pos hc]
          · rw [if_neg hc, if_neg hc]
            congr 1
            apply ih
            · simp only [List.length_drop]
              omega
            · simp only [List.length_drop]
              omega

theorem chunks_eq {α : Type} (k : Nat) (l : List α) :
    chunks k l = if l.length = 0 ∨ k = 0 then []
      else l.take k :: chunks k (l.drop k) := by
  by_cases hc : l.length = 0 ∨ k = 0
  · rw [if_pos hc, chunks]
    cases l with
    | nil => rfl
    | cons c rest =>
        rw [show (c :: rest).length = rest.length + 1 from rfl, chunksAux_succ,
          if_pos (by simpa using hc)]
  · rw [if_neg hc, chunks, chunks]
    cases l with
    | nil => simp at hc
    | cons c rest =>
        rw [show (c :: rest).length = rest.length + 1 from rfl, chunksAux_succ,
          if_neg (by simpa using hc)]
        congr 1
        apply chunksAux_fuel
        · simp only [List.length_drop, List.length_cons]
          omega
        · exact Nat.le_refl _

theorem chunks_nil {α : Type} (k : Nat) : chunks k ([] : List α) = [] := by
  rw [chunks_eq]
  simp

theorem chunks_append {α : Type} (k : Nat) (xs rest : List α)
    (hx : xs.length = k) (hk : 0 < k) :
    chunks k (xs ++ rest) = xs :: chunks k rest := by
  rw [chunks_eq]
  have hlen : (xs ++ rest).length = k + rest.length := by simp [hx]
  have hne : ¬((xs ++ rest).length = 0 ∨ k = 0) := by omega
  rw [if_neg hne]
  congr 1
  · rw [← hx]
    exact List.take_left xs rest
  · rw [← hx, List.drop_left xs rest]

theorem chunks_flatMap {α β : Type} (k : Nat) (f : α → List β) (l : List α)
    (hf : ∀ x ∈ l, (f x).length = k) (hk : 0 < k) :
    chunks k (l.flatMap f) = l.map f := by
  induction l with
  | nil => simp [chunks_nil]
  | cons x xs ih =>
      rw [List.flatMap_cons, chunks_append k (f x) _ (hf x (by simp)) hk]
      rw [ih (fun y hy => hf y (by simp [hy]))]
      rfl

theorem flatten_chunks_aux {α : Type} (k : Nat) (hk : 0 < k) :
    ∀ (n : Nat) (l : List α), l.length ≤ n → (chunks k l).flatten = l := by
  intro n
  induction n with
  | zero =>
      intro l hl
      have : l = [] := List.eq_nil_of_length_eq_zero (by omega)
      simp [this, chunks_nil]
  | succ n ih =>
      intro l hl
      rw [chunks_eq]
      by_cases h : l.length = 0 ∨ k = 0
      · have : l = [] := by
          rcases h with h | h
          · exact List.eq_nil_of_length_eq_zero h
          · omega
        simp [this]
      · rw [if_neg h, List.flatten_cons]
        have hrec : (chunks k (l.drop k)).flatten = l.drop k := by
          apply ih
          simp only [List.length_drop]
          omega
        rw [hrec, List.take_append_drop]

theorem flatten_chunks {α : Type} (k : Nat) (l : List α) (hk : 0 < k) :
    (chunks k l).flatten = l :=
  flatten_chunks_aux k hk l.length l (Nat.le_refl _)

theorem mem_chunks_length_aux {α : Type} (k : Nat) (hk : 0 < k) :
    ∀ (n : Nat) (l : List α), l.length ≤ n → k ∣ l.length →
      ∀ c ∈ chunks k l, c.length = k := by
  intro n
  induction n with
  | zero =>
      intro l hl _ c hc
      have : l = [] := List.eq_nil_of_length_eq_zero (by omega)
      rw [this, chunks_nil] at hc
      simp at hc
  | succ n ih =>
      intro l hl hdvd c hc
      rw [chunks_eq] at hc
      by_cases h : l.length = 0 ∨ k = 0
      · rw [if_pos h] at hc
        simp at hc
      · rw [if_neg h] at hc
        have hkle : k ≤ l.length := Nat.le_of_dvd (by omega) hdvd
        rcases List.mem_cons.mp hc with hc | hc
        · rw [hc, List.length_take]
          omega
        · have hdvd2 : k ∣ (l.drop k).length := by
            simp only [List.length_drop]
            exact Nat.dvd_sub' hdvd (Nat.dvd_refl k)
          apply ih (l.drop k) _ hdvd2 c hc
          simp only [List.length_drop]
          omega

theorem mem_chunks_length {α : Type} (k : Nat) (l : List α)
    (hk : 0 < k) (hdvd : k ∣ l.length) :
    ∀ c ∈ chunks k l, c.length = k :=
  mem_chunks_length_aux k hk l.length l (Nat.le_refl _) hdvd


/-- All bytes of a list, concatenated to a big-endian bit stream. -/
def bytesToBits (l : List Nat) : List Bool := l.flatMap (natToBits 8)

theorem length_bytesToBits (l : List Nat) : (bytesToBits l).length = 8 * l.length := by
  induction l with
  | nil => rfl
  | cons x xs ih =>
      simp only [bytesToBits, List.flatMap_cons, List.length_append, length_natToBits,
        List.length_cons] at *
      omega

theorem chunks_length_mul {α : Type} (k : Nat) (l : List α) (hk : 0 < k)
    (hdvd : k ∣ l.length) : (chunks k l).length * k = l.length := by
  have hall := mem_chunks_length k l hk hdvd
  have hmap : (chunks k l).map List.length = List.replicate (chunks k l).length k := by
    have h1 : (chunks k l).map List.length =
        List.replicate ((chunks k l).map List.length).length k := by
      apply List.eq_replicate_of_mem
      intro x hx
      rcases List.mem_map.mp hx with ⟨c, hc, rfl⟩
      exact hall c hc
    rw [List.length_map] at h1
    exact h1
  have hflat := flatten_chunks k l hk
  have := congrArg List.length hflat
  rw [List.length_flatten, hmap, List.sum_replicate, smul_eq_mul] at this
  omega

theorem flatMap_congr_mem {α β : Type} (l : List α) (f g : α → List β)
    (h : ∀ x ∈ l, f x = g x) : l.flatMap f = l.flatMap g := by
  induction l with
  | nil => rfl
  | cons x xs ih =>
      rw [List.flatMap_cons, List.flatMap_cons, h x (by simp),
        ih (fun y hy => h y (by simp [hy]))]

theorem flatMap_id_flatten {α : Type} (l : List (List α)) :
    l.flatMap (fun c => c) = l.flatten := by
  induction l with
  | nil => rfl
  | cons x xs ih => rw [List.flatMap_cons, List.flatten_cons, ih]

end Bits


namespace Base32

/-- RFC 4648 base32 alphabet (the data_encoding crate's BASE32 symbols,
uppercase). -/
def alpha : List Nat := bstr ("ABCDEFGHIJKLMNOPQRSTUVWXYZ234567")

/-- ASCII uppercasing of a byte (how a case-insensitive decoder canonicalizes
input symbols). -/
def upperByte (c : Nat) : Nat := if 97 ≤ c ∧ c ≤ 122 then c - 32 else c

/-- ASCII lowercasing of a byte (Rust `str::to_lowercase` on ASCII data). -/
def lowerByte (c : Nat) : Nat := if 65 ≤ c ∧ c ≤ 90 then c + 32 else c

/-- data_encoding `BASE32_NOPAD.encode`: emit one symbol per 5-bit group of
the input bits, the last group padded with zero bits; no padding characters. -/
def encode (l : List Nat) : RStr :=
  (Bits.chunks 5 (Bits.bytesToBits l ++
      List.replicate ((5 - (8 * l.length) % 5) % 5) false)).map
    (fun c => alpha.getD (Bits.bitsToNat c) 0)

/-- Value of one input symbol, case-insensitively (BASE32_NOPAD_NOCASE
translates both cases of the alphabet). -/
def symVal (c : Nat) : Option Nat :=
  alpha.findIdx? (fun a => a = upperByte c)

/-- Sequence a list of options (fails if any element is `none`). -/
def allSome {α : Type} : List (Option α) → Option (List α)
  | [] => some []
  | none :: _ => none
  | some a :: rest => (allSome rest).map (fun l => a :: l)

theorem allSome_map_some {α : Type} (l : List α) : allSome (l.map some) = some l := by
  induction l with
  | nil => rfl
  | cons x xs ih => simp [allSome, ih]

/-- data_encoding `BASE32_NOPAD_NOCASE.decode`: reject lengths that encode no
byte string, translate every symbol (either case), reassemble the bytes from
the bit stream, and reject nonzero trailing bits (check_trailing_bits is on
by default). -/
def decode (s : RStr) : Option (List Nat) :=
  if s.length % 8 = 1 ∨ s.length % 8 = 3 ∨ s.length % 8 = 6 then none
  else
    (allSome (s.map symVal)).bind (fun vals =>
      if ((vals.flatMap (Bits.natToBits 5)).drop (s.length * 5 / 8 * 8)).all
          (fun b => b = false) then
        some ((Bits.chunks 8
          ((vals.flatMap (Bits.natToBits 5)).take (s.length * 5 / 8 * 8))).map
            Bits.bitsToNat)
      else none)

theorem symVal_lower_alpha : ∀ v, v < 32 →
    symVal (lowerByte (alpha.getD v 0)) = some v := by decide

/-- Decoding inverts encoding (after ASCII lowercasing) on 36-byte inputs —
the only length the CID codec uses. -/
theorem decode_lower_encode36 (l : List Nat) (hlen : l.length = 36)
    (hlt : ∀ x ∈ l, x < 256) :
    decode ((encode l).map lowerByte) = some l := by
  have hbl : (Bits.bytesToBits l).length = 288 := by
    rw [Bits.length_bytesToBits, hlen]
  have hpad : (5 - (8 * l.length) % 5) % 5 = 2 := by rw [hlen]
  set bits := Bits.bytesToBits l ++ List.replicate 2 false with hbits
  have hbitslen : bits.length = 290 := by
    simp [hbits, hbl]
  have hdvd : (5 : Nat) ∣ bits.length := by rw [hbitslen]; decide
  have hchlen : ∀ c ∈ Bits.chunks 5 bits, c.length = 5 :=
    Bits.mem_chunks_length 5 bits (by omega) hdvd
  have hcount : (Bits.chunks 5 bits).length = 58 := by
    have := Bits.chunks_length_mul 5 bits (by omega) hdvd
    omega
  have henc : encode l =
      (Bits.chunks 5 bits).map (fun c => alpha.getD (Bits.bitsToNat c) 0) := by
    rw [encode, hpad, hbits]
  have hslen : ((encode l).map lowerByte).length = 58 := by
    rw [henc]
    simp [hcount]
  have hAll : allSome (((encode l).map lowerByte).map symVal) =
      some ((Bits.chunks 5 bits).map Bits.bitsToNat) := by
    have hvals : ((encode l).map lowerByte).map symVal =
        (((Bits.chunks 5 bits).map Bits.bitsToNat).map some) := by
      rw [henc]
      simp only [List.map_map]
      apply List.map_congr_left
      intro c hc
      have h5 : c.length = 5 := hchlen c hc
      have hlt32 : Bits.bitsToNat c < 32 := by
        have := Bits.bitsToNat_lt c
        rw [h5] at this
        exact this
      simp only [Function.comp_apply]
      exact symVal_lower_alpha _ hlt32
    rw [hvals, allSome_map_some]
  have hflat : ((Bits.chunks 5 bits).map Bits.bitsToNat).flatMap (Bits.natToBits 5) =
      bits := by
    rw [List.flatMap_map]
    have hcg : (Bits.chunks 5 bits).flatMap
        (fun c => Bits.natToBits 5 (Bits.bitsToNat c)) =
        (Bits.chunks 5 bits).flatMap (fun c => c) := by
      apply Bits.flatMap_congr_mem
      intro c hc
      have h5 : c.length = 5 := hchlen c hc
      rw [← h5]
      exact Bits.natToBits_bitsToNat c
    rw [hcg, Bits.flatMap_id_flatten, Bits.flatten_chunks 5 bits (by omega)]
  rw [decode, if_neg (by rw [hslen]; decide), hAll, Option.some_bind, hslen, hflat]
  have h288 : (58 : Nat) * 5 / 8 * 8 = 288 := by norm_num
  rw [h288]
  have htake : bits.take 288 = Bits.bytesToBits l := by
    rw [hbits, ← hbl, List.take_left]
  have hdrop : bits.drop 288 = List.replicate 2 false := by
    rw [hbits, ← hbl, List.drop_left]
  rw [htake, hdrop, if_pos (by decide)]
  rw [Bits.bytesToBits,
    Bits.chunks_flatMap 8 (Bits.natToBits 8) l
      (fun x _ => Bits.length_natToBits 8 x) (by omega)]
  rw [List.map_map]
  have : l.map (fun x => Bits.bitsToNat (Bits.natToBits 8 x)) = l.map (fun x => x) := by
    apply List.map_congr_left
    intro x hx
    rw [Bits.bitsToNat_natToBits]
    exact Nat.mod_eq_of_lt (by have := hlt x hx; norm_num; omega)
  rw [show (Bits.bitsToNat ∘ Bits.natToBits 8) = fun x => Bits.bitsToNat (Bits.natToBits 8 x) from rfl, this, List.map_id_fun']
  rfl

end Base32

namespace Sha256

/-! The sha2 crate's SHA-256 (FIPS 180-4), over byte lists, with 32-bit words
as `Nat` reduced modulo `2 ^ 32` at each addition. -/

def w32 (x : Nat) : Nat := x % 2 ^ 32

/-- Right rotation of a 32-bit word. -/
def rotr (k x : Nat) : Nat := x / 2 ^ k + x % 2 ^ k * 2 ^ (32 - k)

/-- Logical right shift. -/
def shr (k x : Nat) : Nat := x / 2 ^ k

def bsig0 (x : Nat) : Nat := rotr 2 x ^^^ rotr 13 x ^^^ rotr 22 x

def bsig1 (x : Nat) : Nat := rotr 6 x ^^^ rotr 11 x ^^^ rotr 25 x

def ssig0 (x : Nat) : Nat := rotr 7 x ^^^ rotr 18 x ^^^ shr 3 x

def ssig1 (x : Nat) : Nat := rotr 17 x ^^^ rotr 19 x ^^^ shr 10 x

def ch (x y z : Nat) : Nat := x &&& y ^^^ ((x ^^^ (2 ^ 32 - 1)) &&& z)

def maj (x y z : Nat) : Nat := x &&& y ^^^ (x &&& z) ^^^ (y &&& z)

def K : List Nat :=
  [1116352408, 1899447441, 3049323471, 3921009573, 961987163, 1508970993,
   2453635748, 2870763221, 3624381080, 310598401, 607225278, 1426881987,
   1925078388, 2162078206, 2614888103, 3248222580, 3835390401, 4022224774,
   264347078, 604807628, 770255983, 1249150122, 1555081692, 1996064986,
   2554220882, 2821834349, 2952996808, 3210313671, 3336571891, 3584528711,
   113926993, 338241895, 666307205, 773529912, 1294757372, 1396182291,
   1695183700, 1986661051, 2177026350, 2456956037, 2730485921, 2820302411,
   3259730800, 3345764771, 3516065817, 3600352804, 4094571909, 275423344,
   430227734, 506948616, 659060556, 883997877, 958139571, 1322822218,
   1537002063, 1747873779, 1955562222, 2024104815, 2227730452, 2361852424,
   2428436474, 2756734187, 3204031479, 3329325298]

/-- The running hash state (eight 32-bit words). -/
structure Hs where
  a : Nat
  b : Nat
  c : Nat
  d : Nat
  e : Nat
  f : Nat
  g : Nat
  h : Nat

def iv : Hs :=
  ⟨1779033703, 3144134277, 1013904242, 2773480762,
   1359893119, 2600822924, 528734635, 1541459225⟩

/-- Big-endian word from 4 bytes. -/
def bytesToWord (bs : List Nat) : Nat := bs.foldl (fun acc b => 256 * acc + b) 0

/-- One message-schedule extension step (appends word `w[i]` for `i = length`). -/
def scheduleStep (l : List Nat) : List Nat :=
  l ++ [w32 (ssig1 (l.getD (l.length - 2) 0) + l.getD (l.length - 7) 0 +
    ssig0 (l.getD (l.length - 15) 0) + l.getD (l.length - 16) 0)]

/-- Expand the 16 block words to the 64 schedule words. -/
def schedule (l : List Nat) : List Nat := scheduleStep^[48] l

/-- One compression round. -/
def round (s : Hs) (kw : Nat × Nat) : Hs :=
  let t1 := w32 (s.h + bsig1 s.e + ch s.e s.f s.g + kw.1 + kw.2)
  let t2 := w32 (bsig0 s.a + maj s.a s.b s.c)
  ⟨w32 (t1 + t2), s.a, s.b, s.c, w32 (s.d + t1), s.e, s.f, s.g⟩

/-- Compress one 64-byte block into the state. -/
def compress (s0 : Hs) (block : List Nat) : Hs :=
  let ws := schedule ((Bits.chunks 4 block).map bytesToWord)
  let s := (K.zip ws).foldl round s0
  ⟨w32 (s0.a + s.a), w32 (s0.b + s.b), w32 (s0.c + s.c), w32 (s0.d + s.d),
   w32 (s0.e + s.e), w32 (s0.f + s.f), w32 (s0.g + s.g), w32 (s0.h + s.h)⟩

/-- Big-endian 8-byte encoding of the bit length. -/
def lenBytes (n : Nat) : List Nat :=
  (List.range 8).map (fun i => n / 2 ^ (8 * (7 - i)) % 256)

/-- Merkle–Damgård padding: `0x80`, zeros to 56 mod 64, then the 64-bit
bit-length. -/
def pad (l : List Nat) : List Nat :=
  l ++ [0x80] ++ List.replicate ((64 - (l.length + 9) % 64) % 64) 0 ++
    lenBytes (8 * l.length % 2 ^ 64)

/-- Big-endian bytes of a 32-bit word. -/
def wordBytes (w : Nat) : List Nat :=
  [w / 2 ^ 24 % 256, w / 2 ^ 16 % 256, w / 2 ^ 8 % 256, w % 256]

/-- SHA-256 digest of a byte list. -/
def sha256 (l : List Nat) : List Nat :=
  let s := (Bits.chunks 64 (pad l)).foldl compress iv
  wordBytes s.a ++ wordBytes s.b ++ wordBytes s.c ++ wordBytes s.d ++
    wordBytes s.e ++ wordBytes s.f ++ wordBytes s.g ++ wordBytes s.h

theorem sha256_length (l : List Nat) : (sha256 l).length = 32 := by
  simp [sha256, wordBytes]

theorem wordBytes_lt (w : Nat) : ∀ x ∈ wordBytes w, x < 256 := by
  simp only [wordBytes, List.mem_cons, List.not_mem_nil, or_false]
  intro x hx
  rcases hx with h | h | h | h <;> omega

theorem sha256_lt (l : List Nat) : ∀ x ∈ sha256 l, x < 256 := by
  intro x hx
  simp only [sha256, List.mem_append] at hx
  rcases hx with ((((((h | h) | h) | h) | h) | h) | h) | h <;>
    exact wordBytes_lt _ _ h

end Sha256

/-- src/cid.rs: a CIDv1 holding only the 32 SHA-256 hash bytes (`[u8; 32]`). -/
def Cid : Type := { l : List Nat // l.length = 32 ∧ ∀ x ∈ l, x < 256 }

instance : DecidableEq Cid := fun a b =>
  decidable_of_iff (a.val = b.val) Subtype.ext_iff.symm

namespace Cid

/-- The fixed CIDv1 header: version 1, raw codec 0x55, sha2-256 0x12,
hash length 32. -/
def headerBytes : List Nat := [0x01, 0x55, 0x12, 0x20]

/-- src/cid.rs `Cid::parse_bytes`: require exactly 36 bytes whose first four
are the fixed header, and keep the trailing 32 hash bytes.  (The
all-bytes-below-256 condition is the `Vec<u8>` element typing invariant,
carried explicitly since bytes are modelled as `Nat`.) -/
def parse_bytes (b : List Nat) : Option Cid :=
  if h : b.length = 36 ∧ b.take 4 = headerBytes ∧ ∀ x ∈ b, x < 256 then
    some ⟨b.drop 4, by
      constructor
      · rw [List.length_drop, h.1]
      · intro x hx
        exact h.2.2 x (List.mem_of_mem_drop hx)⟩
  else none

/-- src/cid.rs `Cid::parse`: require the `b` multibase prefix (lowercase, as
`starts_with("b")` checks the exact byte), base32-decode the rest
case-insensitively without padding, then `parse_bytes`. -/
def parse (s : RStr) : Option Cid :=
  match s with
  | [] => none
  | c :: rest => if c = 98 then (Base32.decode rest).bind parse_bytes else none

/-- src/cid.rs `Cid::of`: SHA-256 of the bytes, wrapped. -/
def of (b : List Nat) : Cid :=
  ⟨Sha256.sha256 b, Sha256.sha256_length b, Sha256.sha256_lt b⟩

/-- src/cid.rs `Cid::to_bytes`: the fixed header followed by the hash. -/
def to_bytes (c : Cid) : List Nat := headerBytes ++ c.val

/-- src/cid.rs `Cid::to_string`: `'b'` plus the uppercase base32 encoding of
`to_bytes`, then the whole string ASCII-lowercased. -/
def toText (c : Cid) : RStr :=
  (bstr ("b") ++ Base32.encode (to_bytes c)).map Base32.lowerByte

theorem to_bytes_length (c : Cid) : (to_bytes c).length = 36 := by
  rw [to_bytes, List.length_append, c.property.1]
  rfl

theorem to_bytes_lt (c : Cid) : ∀ x ∈ to_bytes c, x < 256 := by
  intro x hx
  rcases List.mem_append.mp hx with h | h
  · simp only [headerBytes, List.mem_cons, List.not_mem_nil, or_false] at h
    rcases h with h | h | h | h <;> omega
  · exact c.property.2 x h

theorem parse_bytes_to_bytes (c : Cid) : parse_bytes (to_bytes c) = some c := by
  have hcond : (to_bytes c).length = 36 ∧ (to_bytes c).take 4 = headerBytes ∧
      ∀ x ∈ to_bytes c, x < 256 :=
    ⟨to_bytes_length c, by rw [to_bytes]; rfl, to_bytes_lt c⟩
  rw [parse_bytes, dif_pos hcond]
  exact congrArg some (Subtype.ext rfl)

theorem parse_toText (c : Cid) : parse (toText c) = some c := by
  have hb : toText c = 98 :: (Base32.encode (to_bytes c)).map Base32.lowerByte := by
    rw [toText]
    rfl
  rw [hb, parse, if_pos rfl,
    Base32.decode_lower_encode36 (to_bytes c) (to_bytes_length c) (to_bytes_lt c),
    Option.some_bind, parse_bytes_to_bytes]

end Cid

namespace Str

/-! Byte-string splitting primitives used by the URL and query parsers,
with the inversion lemmas that drive the round-trip proofs. -/

/-- Split at the first occurrence of `sep`; `none` if absent. -/
def splitFirst? (sep : Nat) : List Nat → Option (List Nat × List Nat)
  | [] => none
  | c :: rest =>
      if c = sep then some ([], rest)
      else (splitFirst? sep rest).map (fun p => (c :: p.1, p.2))

theorem splitFirst_not_mem {sep : Nat} {l : List Nat} (h : sep ∉ l) :
    splitFirst? sep l = none := by
  induction l with
  | nil => rfl
  | cons c rest ih =>
      rw [splitFirst?, if_neg (by simp at h; omega),
        ih (fun hm => h (List.mem_cons_of_mem c hm))]
      rfl

theorem splitFirst_append {sep : Nat} {a : List Nat} (b : List Nat) (h : sep ∉ a) :
    splitFirst? sep (a ++ sep :: b) = some (a, b) := by
  induction a with
  | nil => simp [splitFirst?]
  | cons c rest ih =>
      have hc : c ≠ sep := by simp at h; omega
      rw [List.cons_append, splitFirst?, if_neg hc,
        ih (fun hm => h (List.mem_cons_of_mem c hm))]
      rfl

theorem splitFirst_eq {sep : Nat} : ∀ {l a b : List Nat},
    splitFirst? sep l = some (a, b) → l = a ++ sep :: b ∧ sep ∉ a := by
  intro l
  induction l with
  | nil => intro a b h; simp [splitFirst?] at h
  | cons c rest ih =>
      intro a b h
      rw [splitFirst?] at h
      by_cases hc : c = sep
      · rw [if_pos hc] at h
        simp only [Option.some.injEq, Prod.mk.injEq] at h
        rcases h with ⟨ha, hb⟩
        subst ha
        subst hb
        subst hc
        simp
      · rw [if_neg hc] at h
        cases hsp : splitFirst? sep rest with
        | none => rw [hsp] at h; simp at h
        | some p =>
            rcases p with ⟨p1, p2⟩
            rw [hsp] at h
            simp at h
            rcases h with ⟨ha, hb⟩
            rcases ih hsp with ⟨h1, h2⟩
            subst ha
            subst hb
            subst h1
            constructor
            · simp
            · intro hmem
              rcases List.mem_cons.mp hmem with he | he
              · exact hc he.symm
              · exact h2 he

theorem splitFirst_cons_self (sep : Nat) (l : List Nat) :
    splitFirst? sep (sep :: l) = some ([], l) := by
  rw [splitFirst?, if_pos rfl]

theorem splitFirst_cons_ne {sep c : Nat} (h : ¬(c = sep)) (l : List Nat) :
    splitFirst? sep (c :: l) = (splitFirst? sep l).map (fun p => (c :: p.1, p.2)) := by
  rw [splitFirst?, if_neg h]

theorem splitFirst_append_none {sep : Nat} {a : List Nat} (h : sep ∉ a) (l : List Nat) :
    splitFirst? sep (a ++ l) = (splitFirst? sep l).map (fun p => (a ++ p.1, p.2)) := by
  induction a with
  | nil =>
      simp only [List.nil_append]
      cases splitFirst? sep l <;> simp
  | cons c q ih =>
      have hc : ¬(c = sep) := by simp at h; omega
      rw [List.cons_append, splitFirst_cons_ne hc,
        ih (fun hm => h (List.mem_cons_of_mem c hm))]
      cases splitFirst? sep l <;> simp

/-- Split on every occurrence of `sep` (always returns at least one piece). -/
def splitOnByte (sep : Nat) : List Nat → List (List Nat)
  | [] => [[]]
  | c :: rest =>
      let r := splitOnByte sep rest
      if c = sep then [] :: r else (c :: r.headI) :: r.tail

theorem splitOnByte_ne_nil (sep : Nat) (l : List Nat) : splitOnByte sep l ≠ [] := by
  cases l with
  | nil => simp [splitOnByte]
  | cons c rest =>
      rw [splitOnByte]
      by_cases hc : c = sep <;> simp [hc]

theorem splitOnByte_single {sep : Nat} {p : List Nat} (h : sep ∉ p) :
    splitOnByte sep p = [p] := by
  induction p with
  | nil => rfl
  | cons c rest ih =>
      have hc : ¬(c = sep) := by simp at h; omega
      rw [splitOnByte]
      simp only [ih (fun hm => h (List.mem_cons_of_mem c hm)), if_neg hc]
      rfl

theorem splitOnByte_append {sep : Nat} {p : List Nat} (rest : List Nat) (h : sep ∉ p) :
    splitOnByte sep (p ++ sep :: rest) = p :: splitOnByte sep rest := by
  induction p with
  | nil =>
      simp only [List.nil_append]
      rw [splitOnByte]
      simp
  | cons c q ih =>
      have hc : ¬(c = sep) := by simp at h; omega
      rw [List.cons_append, splitOnByte]
      simp only [ih (fun hm => h (List.mem_cons_of_mem c hm)), if_neg hc]
      rfl

theorem splitOnByte_intercalate {sep : Nat} (parts : List (List Nat))
    (hne : parts ≠ []) (h : ∀ p ∈ parts, sep ∉ p) :
    splitOnByte sep (List.intercalate [sep] parts) = parts := by
  induction parts with
  | nil => exact absurd rfl hne
  | cons p rest ih =>
      cases rest with
      | nil =>
          rw [List.intercalate]
          simp only [List.intersperse_single, List.flatten_cons, List.flatten_nil,
            List.append_nil]
          exact splitOnByte_single (h p (by simp))
      | cons q t =>
          have hstep : List.intercalate [sep] (p :: q :: t) =
              p ++ sep :: List.intercalate [sep] (q :: t) := by
            simp [List.intercalate, List.intersperse]
          rw [hstep, splitOnByte_append _ (h p (by simp)),
            ih (by simp) (fun r hr => h r (by simp [hr]))]

theorem takeWhile_append_of_boundary {p : Nat → Bool} {a : List Nat} (b : List Nat)
    (ha : ∀ c ∈ a, p c = true) (hb : ∀ x, b.head? = some x → p x = false) :
    (a ++ b).takeWhile p = a ∧ (a ++ b).dropWhile p = b := by
  induction a with
  | nil =>
      simp only [List.nil_append]
      cases b with
      | nil => simp
      | cons x t =>
          have hx := hb x rfl
          constructor
          · simp [List.takeWhile_cons, hx]
          · simp [List.dropWhile_cons, hx]
  | cons c q ih =>
      have hc : p c = true := ha c (by simp)
      rcases ih (fun d hd => ha d (by simp [hd])) with ⟨h1, h2⟩
      constructor
      · rw [List.cons_append, List.takeWhile_cons, hc, h1]
        simp
      · rw [List.cons_append, List.dropWhile_cons, hc, h2]
        simp

/-- Decimal rendering of a natural number (no leading zeros). -/
def natToDec (n : Nat) : List Nat :=
  if h : n < 10 then [48 + n] else natToDec (n / 10) ++ [48 + n % 10]
termination_by n
decreasing_by
  omega

/-- Decimal reading (on all-digit strings). -/
def decToNat (s : List Nat) : Nat := s.foldl (fun a c => 10 * a + (c - 48)) 0

theorem decToNat_append_single (s : List Nat) (c : Nat) :
    decToNat (s ++ [c]) = 10 * decToNat s + (c - 48) := by
  simp [decToNat, List.foldl_append]

theorem decToNat_natToDec (n : Nat) : decToNat (natToDec n) = n := by
  induction n using Nat.strong_induction_on with
  | _ n ih =>
      rw [natToDec]
      by_cases h : n < 10
      · rw [dif_pos h]
        simp [decToNat]
      · rw [dif_neg h, decToNat_append_single, ih (n / 10) (by omega)]
        omega

theorem natToDec_digits (n : Nat) : ∀ c ∈ natToDec n, 48 ≤ c ∧ c ≤ 57 := by
  induction n using Nat.strong_induction_on with
  | _ n ih =>
      intro c hc
      rw [natToDec] at hc
      by_cases h : n < 10
      · rw [dif_pos h] at hc
        simp at hc
        omega
      · rw [dif_neg h] at hc
        rcases List.mem_append.mp hc with hm | hm
        · exact ih (n / 10) (by omega) c hm
        · simp at hm
          have := Nat.mod_lt n (show 0 < 10 by omega)
          omega

end Str

namespace Form

/-! The url crate's application/x-www-form-urlencoded handling:
`query_pairs_mut().append_pair` on the serializing side and `query_pairs()`
on the parsing side. -/

def isAlnum (c : Nat) : Bool :=
  decide ((48 ≤ c ∧ c ≤ 57) ∨ (65 ≤ c ∧ c ≤ 90) ∨ (97 ≤ c ∧ c ≤ 122))

/-- Bytes serialized as themselves: alphanumerics and `*`, `-`, `.`, `_`. -/
def formSafe (c : Nat) : Bool :=
  isAlnum c || decide (c = 42) || decide (c = 45) || decide (c = 46) || decide (c = 95)

def hexDigitUpper (n : Nat) : Nat := if n < 10 then 48 + n else 55 + n

/-- Serialize one byte: safe bytes kept, space to `+`, the rest `%HH`. -/
def encodeByte (c : Nat) : List Nat :=
  if formSafe c then [c]
  else if c = 32 then [43]
  else [37, hexDigitUpper (c / 16), hexDigitUpper (c % 16)]

/-- Serialize one key or value. -/
def encodeForm (s : RStr) : RStr := s.flatMap encodeByte

def hexVal (c : Nat) : Option Nat :=
  if 48 ≤ c ∧ c ≤ 57 then some (c - 48)
  else if 65 ≤ c ∧ c ≤ 70 then some (c - 55)
  else if 97 ≤ c ∧ c ≤ 102 then some (c - 87)
  else none

def hexPair (h1 h2 : Nat) : Option Nat :=
  (hexVal h1).bind (fun a => (hexVal h2).map (fun b => 16 * a + b))

/-- Percent-plus decoding: `+` to space, valid `%HH` to a byte, stray `%`
kept.  (form_urlencoded's final lossy UTF-8 step is the identity on the
valid UTF-8 Rust `String`s can hold, so it is not modelled.)  The fuel
argument makes the recursion structural; it is initialized to the input
length, which the consumption rate never outruns. -/
def decodeFormAux : Nat → RStr → RStr
  | 0, _ => []
  | fuel + 1, l =>
      match l with
      | [] => []
      | c :: rest =>
          if c = 43 then 32 :: decodeFormAux fuel rest
          else if c = 37 then
            if 2 ≤ rest.length then
              (hexPair (rest.getD 0 0) (rest.getD 1 0)).elim
                (37 :: decodeFormAux fuel rest)
                (fun b => b :: decodeFormAux fuel (rest.drop 2))
            else 37 :: decodeFormAux fuel rest
          else c :: decodeFormAux fuel rest

def decodeForm (l : RStr) : RStr := decodeFormAux l.length l

theorem hexVal_hexDigitUpper (n : Nat) (h : n < 16) :
    hexVal (hexDigitUpper n) = some n := by
  rw [hexDigitUpper]
  by_cases h10 : n < 10
  · rw [if_pos h10, hexVal, if_pos (by omega)]
    congr 1
    omega
  · rw [if_neg h10, hexVal, if_neg (by omega), if_pos (by omega)]
    congr 1
    omega

theorem hexPair_round (c : Nat) (h : c < 256) :
    hexPair (hexDigitUpper (c / 16)) (hexDigitUpper (c % 16)) = some c := by
  rw [hexPair, hexVal_hexDigitUpper _ (by omega), hexVal_hexDigitUpper _ (by omega)]
  show some (16 * (c / 16) + c % 16) = some c
  congr 1
  omega

theorem formSafe_ne (c : Nat) (hs : formSafe c = true) : c ≠ 43 ∧ c ≠ 37 := by
  constructor <;> intro he <;> subst he <;> simp [formSafe, isAlnum] at hs

theorem decodeForm_encodeForm_aux (s : RStr) (h : ∀ x ∈ s, x < 256) :
    ∀ fuel, (encodeForm s).length ≤ fuel → decodeFormAux fuel (encodeForm s) = s := by
  induction s with
  | nil =>
      intro fuel _
      rw [show encodeForm [] = [] from rfl]
      cases fuel with
      | zero => rfl
      | succ f => rw [decodeFormAux]
  | cons c rest ih =>
      intro fuel hfuel
      have hc := h c (List.mem_cons_self c rest)
      have ihr := ih (fun x hx => h x (List.mem_cons_of_mem c hx))
      rw [encodeForm, List.flatMap_cons, show rest.flatMap encodeByte = encodeForm rest from rfl]
        at hfuel ⊢
      rw [encodeByte] at hfuel ⊢
      by_cases hs : formSafe c
      · rw [if_pos hs] at hfuel ⊢
        rcases formSafe_ne c hs with ⟨h43, h37⟩
        simp only [List.cons_append, List.nil_append] at hfuel ⊢
        simp only [List.length_cons] at hfuel
        cases fuel with
        | zero => omega
        | succ f =>
            rw [decodeFormAux, if_neg h43, if_neg h37, ihr f (by omega)]
      · rw [if_neg hs] at hfuel ⊢
        by_cases h32 : c = 32
        · rw [if_pos h32] at hfuel ⊢
          simp only [List.cons_append, List.nil_append] at hfuel ⊢
          simp only [List.length_cons] at hfuel
          cases fuel with
          | zero => omega
          | succ f =>
              rw [decodeFormAux, if_pos rfl, ihr f (by omega), h32]
        · rw [if_neg h32] at hfuel ⊢
          simp only [List.cons_append, List.nil_append] at hfuel ⊢
          simp only [List.length_cons] at hfuel
          cases fuel with
          | zero => omega
          | succ f =>
              rw [decodeFormAux, if_neg (by omega), if_pos rfl,
                if_pos (by simp)]
              simp only [List.getD_cons_zero, List.getD_cons_succ, List.drop_succ_cons,
                List.drop_zero]
              rw [hexPair_round c hc]
              simp only [Option.elim]
              rw [ihr f (by omega)]

theorem decodeForm_encodeForm (s : RStr) (h : ∀ x ∈ s, x < 256) :
    decodeForm (encodeForm s) = s :=
  decodeForm_encodeForm_aux s h (encodeForm s).length (Nat.le_refl _)

theorem encodeByte_avoid (c : Nat) (hc : c < 256) :
    ∀ x ∈ encodeByte c, x ≠ 38 ∧ x ≠ 61 := by
  intro x hx
  rw [encodeByte] at hx
  by_cases hs : formSafe c
  · rw [if_pos hs] at hx
    simp at hx
    subst hx
    constructor <;> intro he <;> subst he <;> simp [formSafe, isAlnum] at hs
  · rw [if_neg hs] at hx
    by_cases h32 : c = 32
    · rw [if_pos h32] at hx
      simp at hx
      omega
    · rw [if_neg h32] at hx
      simp at hx
      rcases hx with hx | hx | hx
      · omega
      · subst hx
        rw [hexDigitUpper]
        by_cases h10 : c / 16 < 10
        · rw [if_pos h10]
          omega
        · rw [if_neg h10]
          have : c / 16 < 16 := by omega
          omega
      · subst hx
        rw [hexDigitUpper]
        by_cases h10 : c % 16 < 10
        · rw [if_pos h10]
          omega
        · rw [if_neg h10]
          have : c % 16 < 16 := by omega
          omega

theorem encodeForm_avoid (s : RStr) (h : ∀ x ∈ s, x < 256) :
    ∀ x ∈ encodeForm s, x ≠ 38 ∧ x ≠ 61 := by
  intro x hx
  rw [encodeForm] at hx
  rcases List.mem_flatMap.mp hx with ⟨c, hcs, hxc⟩
  exact encodeByte_avoid c (h c hcs) x hxc

/-- One serialized `key=value` piece. -/
def encPiece (p : RStr × RStr) : RStr := encodeForm p.1 ++ 61 :: encodeForm p.2

/-- The url crate's query serializer output for a pair list (`append_pair`
repeatedly, starting from an empty query). -/
def renderPairs (pairs : List (RStr × RStr)) : RStr :=
  List.intercalate [38] (pairs.map encPiece)

/-- Handling of one nonempty `&`-separated piece by `query_pairs()`: split at
the first `=` (no `=` means empty value), decode key and value. -/
def parsePiece (piece : RStr) : Option (RStr × RStr) :=
  if piece = [] then none
  else some ((Str.splitFirst? 61 piece).elim (decodeForm piece, [])
    (fun kv => (decodeForm kv.1, decodeForm kv.2)))

/-- The url crate's `query_pairs()`: split the raw query on `&`, skip empty
pieces, handle each piece. -/
def parsePairs (q : RStr) : List (RStr × RStr) :=
  (Str.splitOnByte 38 q).filterMap parsePiece

theorem parsePiece_round (p : RStr × RStr) (h1 : ∀ x ∈ p.1, x < 256)
    (h2 : ∀ x ∈ p.2, x < 256) :
    parsePiece (encPiece p) = some p := by
  have hne : encPiece p ≠ [] := by
    rw [encPiece]
    intro he
    have := congrArg List.length he
    simp at this
  have hsp : Str.splitFirst? 61 (encPiece p) = some (encodeForm p.1, encodeForm p.2) :=
    Str.splitFirst_append _ (fun hm => ((encodeForm_avoid p.1 h1) 61 hm).2 rfl)
  rw [parsePiece, if_neg hne, hsp]
  simp only [Option.elim]
  rw [decodeForm_encodeForm _ h1, decodeForm_encodeForm _ h2]

theorem filterMap_parsePiece (l : List (RStr × RStr))
    (h : ∀ p ∈ l, (∀ x ∈ p.1, x < 256) ∧ (∀ x ∈ p.2, x < 256)) :
    (l.map encPiece).filterMap parsePiece = l := by
  induction l with
  | nil => rfl
  | cons p rest ih =>
      rw [List.map_cons, List.filterMap_cons,
        parsePiece_round p (h p (List.mem_cons_self p rest)).1
          (h p (List.mem_cons_self p rest)).2,
        ih (fun q hq => h q (List.mem_cons_of_mem p hq))]

theorem parsePairs_renderPairs (pairs : List (RStr × RStr))
    (h : ∀ p ∈ pairs, (∀ x ∈ p.1, x < 256) ∧ (∀ x ∈ p.2, x < 256)) :
    parsePairs (renderPairs pairs) = pairs := by
  cases hp : pairs with
  | nil => rfl
  | cons p rest =>
      subst hp
      rw [parsePairs, renderPairs]
      rw [Str.splitOnByte_intercalate ((p :: rest).map encPiece) (by simp)
        (by
          intro piece hpc
          rcases List.mem_map.mp hpc with ⟨q, hq, rfl⟩
          intro hm
          rw [encPiece] at hm
          rcases List.mem_append.mp hm with hm | hm
          · exact (encodeForm_avoid q.1 (h q hq).1 38 hm).1 rfl
          · rcases List.mem_cons.mp hm with hm | hm
            · omega
            · exact (encodeForm_avoid q.2 (h q hq).2 38 hm).1 rfl)]
      exact filterMap_parsePiece _ h

end Form

/-! ## URL model

A restricted but faithful model of the url crate (WHATWG URL) covering the
URL shapes this repository handles: hierarchical URLs with authority
(`scheme://[user[:pass]@]host[:port]/segs[?query]`) and
cannot-be-a-base URLs (`scheme:opaque-path[?query]`, e.g. `magnet:?…`,
`urn:cid:…`).  Restrictions (each fails parsing here rather than being
normalized as the crate would): no fragments, no IDNA/IPv6/percent-escape
normalization of hosts or paths, no `.`/`..` segments, no special-scheme
URLs lacking `//`.  Scheme and host accept only their canonical (lowercase,
unescaped) spellings; ports are normalized by dropping a scheme's default
port exactly as the crate does. -/

def isSpecialScheme (s : RStr) : Bool :=
  s = bstr ("http") || s = bstr ("https") || s = bstr ("ws") ||
    s = bstr ("wss") || s = bstr ("ftp")

def defaultPort (s : RStr) : Option Nat :=
  if s = bstr ("http") || s = bstr ("ws") then some 80
  else if s = bstr ("https") || s = bstr ("wss") then some 443
  else if s = bstr ("ftp") then some 21
  else none

def schemeCharOK (c : Nat) : Bool :=
  decide ((97 ≤ c ∧ c ≤ 122) ∨ (48 ≤ c ∧ c ≤ 57) ∨ c = 43 ∨ c = 45 ∨ c = 46)

def schemeOK (s : RStr) : Bool :=
  match s with
  | [] => false
  | c :: _ => decide (97 ≤ c ∧ c ≤ 122) && s.all schemeCharOK

def hostCharOK (c : Nat) : Bool :=
  decide ((97 ≤ c ∧ c ≤ 122) ∨ (48 ≤ c ∧ c ≤ 57) ∨ c = 45 ∨ c = 46 ∨ c = 95)

def userCharOK (c : Nat) : Bool :=
  decide (33 ≤ c ∧ c ≤ 126 ∧ c ≠ 47 ∧ c ≠ 58 ∧ c ≠ 63 ∧ c ≠ 35 ∧ c ≠ 64)

def passCharOK (c : Nat) : Bool :=
  decide (33 ≤ c ∧ c ≤ 126 ∧ c ≠ 47 ∧ c ≠ 63 ∧ c ≠ 35 ∧ c ≠ 64)

def segCharOK (c : Nat) : Bool :=
  decide (33 ≤ c ∧ c ≤ 126 ∧ c ≠ 47 ∧ c ≠ 63 ∧ c ≠ 35)

def segOK (s : RStr) : Bool :=
  s.all segCharOK && !(s = bstr (".")) && !(s = bstr (".."))

def cnbCharOK (c : Nat) : Bool :=
  decide (33 ≤ c ∧ c ≤ 126 ∧ c ≠ 63 ∧ c ≠ 35)

def queryCharOK (c : Nat) : Bool :=
  decide (33 ≤ c ∧ c ≤ 126 ∧ c ≠ 35)

structure Authority where
  user : RStr
  pass : Option RStr
  host : RStr
  port : Option Nat
deriving DecidableEq

inductive UrlBody where
  /-- A cannot-be-a-base URL's opaque path. -/
  | cannotBeABase (p : RStr)
  /-- `//authority/…` with slash-separated path segments (the serialized
  path is `/` followed by the segments joined with `/`). -/
  | hier (auth : Authority) (segs : List RStr)
deriving DecidableEq

structure Url where
  scheme : RStr
  body : UrlBody
  query : Option RStr
deriving DecidableEq

namespace Url

def renderAuth (a : Authority) : RStr :=
  (if a.user = [] ∧ a.pass = none then []
   else a.user ++ (match a.pass with | none => [] | some p => 58 :: p) ++ [64]) ++
  a.host ++ (match a.port with | none => [] | some n => 58 :: Str.natToDec n)

def renderPath (segs : List RStr) : RStr := 47 :: List.intercalate [47] segs

def renderQuery (q : Option RStr) : RStr :=
  match q with
  | none => []
  | some q => 63 :: q

/-- `Url::as_str` / `Url::to_string`: the serialization. -/
def render (u : Url) : RStr :=
  u.scheme ++ 58 ::
    ((match u.body with
      | .cannotBeABase p => p
      | .hier a segs => 47 :: 47 :: (renderAuth a ++ renderPath segs)) ++
     renderQuery u.query)

/-- The `authority()` accessor (user[:pass]@host[:port], empty for
cannot-be-a-base URLs). -/
def authorityStr (u : Url) : RStr :=
  match u.body with
  | .cannotBeABase _ => []
  | .hier a _ => renderAuth a

def parsePort (lsch : RStr) (pstr : RStr) : Option (Option Nat) :=
  if pstr = [] then some none
  else if pstr.all (fun c => decide (48 ≤ c ∧ c ≤ 57)) &&
      decide (Str.decToNat pstr ≤ 65535) then
    some (if defaultPort lsch = some (Str.decToNat pstr) then none
          else some (Str.decToNat pstr))
  else none

def parseAuth (lsch : RStr) (a : RStr) : Option Authority :=
  let ui := (Str.splitFirst? 64 a).elim ((none : Option RStr), a)
    (fun p => (some p.1, p.2))
  let up := ui.1.elim (([] : RStr), (none : Option RStr))
    (fun u => (Str.splitFirst? 58 u).elim (u, none) (fun p => (p.1, some p.2)))
  let hp := (Str.splitFirst? 58 ui.2).elim (ui.2, ([] : RStr)) (fun p => (p.1, p.2))
  if !(hp.1 = []) && hp.1.all hostCharOK && up.1.all userCharOK &&
      up.2.elim true (fun p => p.all passCharOK) then
    (parsePort lsch hp.2).map (fun port => ⟨up.1, up.2, hp.1, port⟩)
  else none

def parseSegs (p : RStr) : Option (List RStr) :=
  if (Str.splitOnByte 47 p).all segOK then some (Str.splitOnByte 47 p) else none

def parseHier (lsch : RStr) (r2 : RStr) : Option Url :=
  let a := r2.takeWhile (fun c => !(decide (c = 47) || decide (c = 63)))
  let tl := r2.dropWhile (fun c => !(decide (c = 47) || decide (c = 63)))
  (parseAuth lsch a).bind (fun auth =>
    if tl = [] then some ⟨lsch, .hier auth [[]], none⟩
    else if tl.headI = 63 then
      if tl.tail.all queryCharOK then some ⟨lsch, .hier auth [[]], some tl.tail⟩
      else none
    else if tl.headI = 47 then
      (Str.splitFirst? 63 tl.tail).elim
        ((parseSegs tl.tail).map (fun segs => ⟨lsch, .hier auth segs, none⟩))
        (fun pq =>
          if pq.2.all queryCharOK then
            (parseSegs pq.1).map (fun segs => ⟨lsch, .hier auth segs, some pq.2⟩)
          else none)
    else none)

def parseCnb (lsch : RStr) (rest : RStr) : Option Url :=
  (Str.splitFirst? 63 rest).elim
    (if rest.all cnbCharOK then some ⟨lsch, .cannotBeABase rest, none⟩ else none)
    (fun pq =>
      if pq.1.all cnbCharOK && pq.2.all queryCharOK then
        some ⟨lsch, .cannotBeABase pq.1, some pq.2⟩
      else none)

/-- `Url::parse` on the modelled fragment. -/
def parse (s : RStr) : Option Url :=
  (Str.splitFirst? 58 s).elim none
    (fun p =>
      if schemeOK (p.1.map Base32.lowerByte) then
        if p.2.take 2 = [47, 47] then
          parseHier (p.1.map Base32.lowerByte) (p.2.drop 2)
        else if isSpecialScheme (p.1.map Base32.lowerByte) then none
        else parseCnb (p.1.map Base32.lowerByte) p.2
      else none)

def AuthorityWF (lsch : RStr) (a : Authority) : Prop :=
  ¬(a.host = []) ∧ a.host.all hostCharOK = true ∧ a.user.all userCharOK = true ∧
  (∀ p, a.pass = some p → p.all passCharOK = true) ∧
  (∀ n, a.port = some n → n ≤ 65535 ∧ ¬(defaultPort lsch = some n))

/-- The invariant every parsed URL satisfies; exactly what the round-trip
`parse (render u) = some u` needs. -/
def WF (u : Url) : Prop :=
  schemeOK u.scheme = true ∧ u.scheme.map Base32.lowerByte = u.scheme ∧
  (∀ q, u.query = some q → q.all queryCharOK = true) ∧
  (match u.body with
   | .cannotBeABase p =>
       p.all cnbCharOK = true ∧ isSpecialScheme u.scheme = false ∧
         ¬(p.take 2 = [47, 47])
   | .hier a segs =>
       AuthorityWF u.scheme a ∧ ¬(segs = []) ∧ ∀ s ∈ segs, segOK s = true)

/-- `Url::join` restricted to the joins the repository performs: a relative
reference that is one plain path segment (the CID text).  Per RFC 3986 merge,
it replaces the base's last segment and drops the query.  Joining on a
cannot-be-a-base URL fails, as in the crate. -/
def join (base : Url) (rel : RStr) : Option Url :=
  match base.body with
  | .cannotBeABase _ => none
  | .hier a segs =>
      if !(rel = []) && rel.all (fun c => segCharOK c && !(c = 58)) &&
          !(rel = bstr (".")) && !(rel = bstr ("..")) then
        some ⟨base.scheme, .hier a (segs.dropLast ++ [rel]), none⟩
      else none

/-- A tuple origin (scheme, host, port-or-default). -/
inductive OriginV where
  | tuple (scheme : RStr) (host : RStr) (port : Nat)
deriving DecidableEq

/-- `Url::origin`: special schemes yield a tuple origin with the default
port filled in; all other URLs get a fresh opaque origin, which the url
crate makes equal to nothing (each call increments a counter), modelled as
`none`. -/
def origin? (u : Url) : Option OriginV :=
  if isSpecialScheme u.scheme then
    match u.body with
    | .hier a _ =>
        some (.tuple u.scheme a.host
          (match a.port with
           | some n => n
           | none => (defaultPort u.scheme).getD 0))
    | .cannotBeABase _ => none
  else none

theorem lowerByte_idem (c : Nat) : Base32.lowerByte (Base32.lowerByte c) = Base32.lowerByte c := by
  rw [Base32.lowerByte, Base32.lowerByte]
  split_ifs <;> first | rfl | omega

theorem map_lowerByte_idem (s : RStr) :
    (s.map Base32.lowerByte).map Base32.lowerByte = s.map Base32.lowerByte := by
  rw [List.map_map]
  apply List.map_congr_left
  intro c _
  exact lowerByte_idem c

theorem scheme_no_colon {s : RStr} (h : schemeOK s = true) : (58 : Nat) ∉ s := by
  intro hm
  cases s with
  | nil => simp at hm
  | cons c rest =>
      rw [schemeOK, Bool.and_eq_true, List.all_eq_true] at h
      have := h.2 58 hm
      simp [schemeCharOK] at this

theorem natToDec_ne_nil (n : Nat) : Str.natToDec n ≠ [] := by
  rw [Str.natToDec]
  by_cases h : n < 10
  · rw [dif_pos h]
    simp
  · rw [dif_neg h]
    simp

theorem mem_intercalate {x sep : Nat} {parts : List RStr}
    (h : x ∈ List.intercalate [sep] parts) : x = sep ∨ ∃ p ∈ parts, x ∈ p := by
  induction parts with
  | nil => simp [List.intercalate] at h
  | cons p rest ih =>
      cases rest with
      | nil =>
          simp [List.intercalate] at h
          exact Or.inr ⟨p, by simp, h⟩
      | cons q t =>
          have hstep : List.intercalate [sep] (p :: q :: t) =
              p ++ sep :: List.intercalate [sep] (q :: t) := by
            simp [List.intercalate, List.intersperse]
          rw [hstep] at h
          rcases List.mem_append.mp h with hm | hm
          · exact Or.inr ⟨p, by simp, hm⟩
          · rcases List.mem_cons.mp hm with hm | hm
            · exact Or.inl hm
            · rcases ih hm with hm | ⟨r, hr, hxr⟩
              · exact Or.inl hm
              · exact Or.inr ⟨r, by simp [hr], hxr⟩

theorem parsePort_nil (lsch : RStr) : parsePort lsch [] = some none := by
  rw [parsePort, if_pos rfl]

theorem parsePort_natToDec (lsch : RStr) (n : Nat) (hle : n ≤ 65535)
    (hdef : ¬(defaultPort lsch = some n)) :
    parsePort lsch (Str.natToDec n) = some (some n) := by
  rw [parsePort, if_neg (natToDec_ne_nil n)]
  have hdig : (Str.natToDec n).all (fun c => decide (48 ≤ c ∧ c ≤ 57)) = true := by
    rw [List.all_eq_true]
    intro c hc
    have := Str.natToDec_digits n c hc
    simp
    omega
  rw [Str.decToNat_natToDec]
  rw [if_pos (by rw [hdig]; simp [hle]), if_neg hdef]

theorem hostCharOK_ne {c : Nat} (h : hostCharOK c = true) :
    c ≠ 47 ∧ c ≠ 63 ∧ c ≠ 64 ∧ c ≠ 58 := by
  simp [hostCharOK] at h
  omega

theorem userCharOK_ne {c : Nat} (h : userCharOK c = true) :
    c ≠ 47 ∧ c ≠ 63 ∧ c ≠ 64 ∧ c ≠ 58 := by
  simp [userCharOK] at h
  omega

theorem passCharOK_ne {c : Nat} (h : passCharOK c = true) :
    c ≠ 47 ∧ c ≠ 63 ∧ c ≠ 64 := by
  simp [passCharOK] at h
  omega

theorem segCharOK_ne {c : Nat} (h : segCharOK c = true) :
    c ≠ 47 ∧ c ≠ 63 ∧ c ≠ 35 := by
  simp [segCharOK] at h
  omega

theorem renderAuth_no_sep {lsch : RStr} {a : Authority} (h : AuthorityWF lsch a) :
    ∀ c ∈ renderAuth a, ¬(c = 47 ∨ c = 63) := by
  rcases h with ⟨hh1, hh2, hu, hp, hport⟩
  intro c hc
  rw [renderAuth] at hc
  rcases List.mem_append.mp hc with hm | hm
  · rcases List.mem_append.mp hm with hm | hm
    · by_cases hcase : a.user = [] ∧ a.pass = none
      · rw [if_pos hcase] at hm
        simp at hm
      · rw [if_neg hcase] at hm
        rcases List.mem_append.mp hm with hm2 | hm2
        · rcases List.mem_append.mp hm2 with hm3 | hm3
          · have := userCharOK_ne (List.all_eq_true.mp hu c hm3)
            omega
          · cases hps : a.pass with
            | none => rw [hps] at hm3; simp at hm3
            | some pw =>
                rw [hps] at hm3
                rcases List.mem_cons.mp hm3 with hm4 | hm4
                · omega
                · have := passCharOK_ne (List.all_eq_true.mp (hp pw hps) c hm4)
                  omega
        · simp at hm2
          omega
    · have := hostCharOK_ne (List.all_eq_true.mp hh2 c hm)
      omega
  · cases hpo : a.port with
    | none => rw [hpo] at hm; simp at hm
    | some n =>
        rw [hpo] at hm
        rcases List.mem_cons.mp hm with hm4 | hm4
        · omega
        · have := Str.natToDec_digits n c hm4
          omega

theorem parseAuth_renderAuth (lsch : RStr) (a : Authority)
    (h : AuthorityWF lsch a) : parseAuth lsch (renderAuth a) = some a := by
  rcases a with ⟨user, pass, host, port⟩
  rcases h with ⟨hh1, hh2, hu, hp, hport⟩
  simp only at hh1 hh2 hu hp hport
  have h64host : (64 : Nat) ∉ host := fun hm =>
    (hostCharOK_ne (List.all_eq_true.mp hh2 _ hm)).2.2.1 rfl
  have h58host : (58 : Nat) ∉ host := fun hm =>
    (hostCharOK_ne (List.all_eq_true.mp hh2 _ hm)).2.2.2 rfl
  have h64user : (64 : Nat) ∉ user := fun hm =>
    (userCharOK_ne (List.all_eq_true.mp hu _ hm)).2.2.1 rfl
  have h58user : (58 : Nat) ∉ user := fun hm =>
    (userCharOK_ne (List.all_eq_true.mp hu _ hm)).2.2.2 rfl
  have h64dec : ∀ n : Nat, (64 : Nat) ∉ host ++ 58 :: Str.natToDec n := by
    intro n hm
    rcases List.mem_append.mp hm with hm | hm
    · exact h64host hm
    · rcases List.mem_cons.mp hm with hm | hm
      · omega
      · have := Str.natToDec_digits n 64 hm
        omega
  by_cases hcase : user = [] ∧ pass = none
  · rcases hcase with ⟨rfl, rfl⟩
    cases port with
    | none =>
        rw [renderAuth, parseAuth]
        simp [Str.splitFirst_not_mem h64host, Str.splitFirst_not_mem h58host,
          hh1, hh2, Option.elim, parsePort_nil]
    | some n =>
        rcases hport n rfl with ⟨hle, hdef⟩
        rw [renderAuth, parseAuth]
        simp [Str.splitFirst_not_mem (h64dec n),
          Str.splitFirst_append_none h58host, Str.splitFirst_cons_self,
          hh1, hh2, Option.elim, parsePort_natToDec lsch n hle hdef]
  · have hupass : ∀ pw, pass = some pw → (64 : Nat) ∉ pw := by
      intro pw hps hm
      exact (passCharOK_ne (List.all_eq_true.mp (hp pw hps) _ hm)).2.2 rfl
    cases hps : pass with
    | none =>
        have huser : ¬(user = []) := by
          intro he
          exact hcase ⟨he, hps⟩
        subst hps
        cases port with
        | none =>
            rw [renderAuth, parseAuth]
            simp [huser, Str.splitFirst_append_none h64user,
              Str.splitFirst_not_mem h58user,
              Str.splitFirst_not_mem h64host, Str.splitFirst_not_mem h58host,
              Str.splitFirst_cons_self, hh1, hh2, hu, ← List.all_eq_true,
              Option.elim, parsePort_nil]
        | some n =>
            rcases hport n rfl with ⟨hle, hdef⟩
            rw [renderAuth, parseAuth]
            simp [huser, Str.splitFirst_append_none h64user,
              Str.splitFirst_not_mem h58user,
              Str.splitFirst_not_mem (h64dec n),
              Str.splitFirst_append_none h58host, Str.splitFirst_cons_self,
              hh1, hh2, hu, ← List.all_eq_true, Option.elim,
              parsePort_natToDec lsch n hle hdef]
    | some pw =>
        subst hps
        have h64pw := hupass pw rfl
        cases port with
        | none =>
            rw [renderAuth, parseAuth]
            simp [Str.splitFirst_append_none h64user,
              Str.splitFirst_append_none h64pw,
              Str.splitFirst_cons_ne (show ¬((58 : Nat) = 64) from by omega),
              Str.splitFirst_append_none h58user,
              Str.splitFirst_not_mem h58host,
              Str.splitFirst_cons_self, hh1, hh2, hu, hp pw rfl,
              ← List.all_eq_true, Option.elim, parsePort_nil]
        | some n =>
            rcases hport n rfl with ⟨hle, hdef⟩
            rw [renderAuth, parseAuth]
            simp [Str.splitFirst_append_none h64user,
              Str.splitFirst_append_none h64pw,
              Str.splitFirst_cons_ne (show ¬((58 : Nat) = 64) from by omega),
              Str.splitFirst_append_none h58user,
              Str.splitFirst_append_none h58host, Str.splitFirst_cons_self,
              hh1, hh2, hu, hp pw rfl, ← List.all_eq_true, Option.elim,
              parsePort_natToDec lsch n hle hdef]

theorem cnbCharOK_ne {c : Nat} (h : cnbCharOK c = true) : c ≠ 63 ∧ c ≠ 35 := by
  simp [cnbCharOK] at h
  omega

theorem take2_append_47 {p q : RStr} (hp : ¬(p.take 2 = [47, 47]))
    (hq : q = [] ∨ q.head? = some 63) :
    ¬((p ++ q).take 2 = [47, 47]) := by
  match p with
  | [] =>
      rcases hq with rfl | hq
      · simp
      · cases q with
        | nil => simp
        | cons c t =>
            simp at hq
            subst hq
            cases t <;> simp
  | [c1] =>
      rcases hq with rfl | hq
      · simpa using hp
      · cases q with
        | nil => simp at hq
        | cons c t =>
            simp at hq
            subst hq
            simp
  | c1 :: c2 :: t =>
      simpa using hp

theorem headI_image_47 (segs : List RStr) (queryR : RStr) :
    ((47 :: List.intercalate [47] segs) ++ queryR).headI = 47 := by
  simp

/-- The common tail of `parse_render`: parsing the rendered hierarchical
part after the `//`, for an already-rendered query suffix `qR`. -/
theorem parseHier_render_core (lsch : RStr) (a : Authority) (segs : List RStr)
    (qR : RStr) (qv : Option RStr)
    (hwf : AuthorityWF lsch a) (hsegs : ¬(segs = []))
    (hsegok : ∀ s ∈ segs, segOK s = true)
    (hcorr : (qR = [] ∧ qv = none) ∨ ∃ q, qR = 63 :: q ∧ qv = some q ∧
      q.all queryCharOK = true) :
    parseHier lsch (renderAuth a ++ (renderPath segs ++ qR)) =
      some ⟨lsch, .hier a segs, qv⟩ := by
  have h47segs : ∀ s ∈ segs, (47 : Nat) ∉ s ∧ (63 : Nat) ∉ s := by
    intro s hs
    have hall := hsegok s hs
    rw [segOK, Bool.and_eq_true, Bool.and_eq_true] at hall
    have hall2 := List.all_eq_true.mp hall.1.1
    constructor <;> intro hm
    · exact (segCharOK_ne (hall2 _ hm)).1 rfl
    · exact (segCharOK_ne (hall2 _ hm)).2.1 rfl
  have h63int : (63 : Nat) ∉ List.intercalate [47] segs := by
    intro hm
    rcases mem_intercalate hm with hm | ⟨s, hs, hms⟩
    · omega
    · exact (h47segs s hs).2 hms
  have hsegsplit : Str.splitOnByte 47 (List.intercalate [47] segs) = segs :=
    Str.splitOnByte_intercalate segs hsegs (fun s hs => (h47segs s hs).1)
  have hb1 : ∀ c ∈ renderAuth a,
      (fun c => !(decide (c = 47) || decide (c = 63))) c = true := by
    intro c hc
    have h2 := renderAuth_no_sep hwf c hc
    push_neg at h2
    simp [h2.1, h2.2]
  have hb2 : ∀ x, ((renderPath segs) ++ qR).head? = some x →
      (fun c => !(decide (c = 47) || decide (c = 63))) x = false := by
    intro x hx
    rw [renderPath, List.cons_append, List.head?_cons] at hx
    injection hx with hx
    subst hx
    simp
  have hbound := Str.takeWhile_append_of_boundary
    (a := renderAuth a) ((renderPath segs) ++ qR) hb1 hb2
  simp only [parseHier]
  rw [hbound.1, hbound.2, parseAuth_renderAuth _ _ hwf, Option.some_bind]
  have htlne : ¬(renderPath segs ++ qR = []) := by
    rw [renderPath]
    simp
  rw [if_neg htlne]
  have hheadI : (renderPath segs ++ qR).headI = 47 := by
    rw [renderPath]
    simp
  rw [hheadI, if_neg (by omega), if_pos rfl]
  have htail : (renderPath segs ++ qR).tail = List.intercalate [47] segs ++ qR := by
    rw [renderPath]
    simp
  rw [htail]
  rcases hcorr with ⟨rfl, rfl⟩ | ⟨q, rfl, rfl, hqok⟩
  · simp only [List.append_nil]
    rw [Str.splitFirst_not_mem h63int]
    simp only [Option.elim]
    rw [parseSegs, hsegsplit, if_pos (List.all_eq_true.mpr hsegok)]
    rfl
  · rw [Str.splitFirst_append _ h63int]
    simp only [Option.elim]
    rw [if_pos hqok, parseSegs, hsegsplit, if_pos (List.all_eq_true.mpr hsegok)]
    rfl

/-- The cannot-be-a-base tail of `parse_render`. -/
theorem parseCnb_render_core (lsch : RStr) (p : RStr) (qR : RStr) (qv : Option RStr)
    (hpchars : p.all cnbCharOK = true)
    (hcorr : (qR = [] ∧ qv = none) ∨ ∃ q, qR = 63 :: q ∧ qv = some q ∧
      q.all queryCharOK = true) :
    parseCnb lsch (p ++ qR) = some ⟨lsch, .cannotBeABase p, qv⟩ := by
  have h63p : (63 : Nat) ∉ p := fun hm =>
    (cnbCharOK_ne (List.all_eq_true.mp hpchars _ hm)).1 rfl
  rcases hcorr with ⟨rfl, rfl⟩ | ⟨q, rfl, rfl, hqok⟩
  · simp only [List.append_nil]
    rw [parseCnb, Str.splitFirst_not_mem h63p]
    simp only [Option.elim]
    rw [if_pos hpchars]
  · rw [parseCnb, Str.splitFirst_append _ h63p]
    simp only [Option.elim]
    rw [if_pos (by simp [hpchars, hqok])]

/-- Parsing inverts rendering on well-formed URLs. -/
theorem parse_render (u : Url) (h : WF u) : parse (render u) = some u := by
  rcases u with ⟨sch, body, query⟩
  rcases h with ⟨hsch, hlow, hq, hbody⟩
  simp only at hsch hlow hq hbody
  have h58 : (58 : Nat) ∉ sch := scheme_no_colon hsch
  have hcorr : (renderQuery query = [] ∧ query = none) ∨
      ∃ q, renderQuery query = 63 :: q ∧ query = some q ∧
        q.all queryCharOK = true := by
    cases query with
    | none => exact Or.inl ⟨rfl, rfl⟩
    | some q => exact Or.inr ⟨q, rfl, rfl, hq q rfl⟩
  rw [render, parse]
  rw [Str.splitFirst_append _ h58]
  simp only [Option.elim, hlow, if_pos hsch]
  cases body with
  | cannotBeABase p =>
      rcases hbody with ⟨hpchars, hnospecial, htake2⟩
      have hqshape : renderQuery query = [] ∨
          (renderQuery query).head? = some 63 := by
        rcases hcorr with ⟨he, _⟩ | ⟨q, he, _, _⟩
        · exact Or.inl he
        · rw [he]
          exact Or.inr rfl
      rw [if_neg (take2_append_47 htake2 hqshape), if_neg (by rw [hnospecial]; simp)]
      exact parseCnb_render_core _ p _ query hpchars hcorr
  | hier a segs =>
      rcases hbody with ⟨hwf, hsegs, hsegok⟩
      have htake2 : ((47 :: 47 :: (renderAuth a ++ renderPath segs)) ++
          renderQuery query).take 2 = [47, 47] := by simp
      rw [if_pos htake2]
      have hdrop : ((47 :: 47 :: (renderAuth a ++ renderPath segs)) ++
          renderQuery query).drop 2 =
          renderAuth a ++ (renderPath segs ++ renderQuery query) := by
        simp
      rw [hdrop]
      exact parseHier_render_core _ a segs _ query hwf hsegs hsegok hcorr

theorem parsePort_wf {lsch pstr : RStr} {port : Option Nat}
    (h : parsePort lsch pstr = some port) :
    ∀ n, port = some n → n ≤ 65535 ∧ ¬(defaultPort lsch = some n) := by
  intro n hn
  rw [parsePort] at h
  by_cases h1 : pstr = []
  · rw [if_pos h1] at h
    injection h with h
    rw [← h] at hn
    cases hn
  · rw [if_neg h1] at h
    by_cases h2 : (pstr.all (fun c => decide (48 ≤ c ∧ c ≤ 57)) &&
        decide (Str.decToNat pstr ≤ 65535)) = true
    · rw [if_pos h2] at h
      injection h with h
      rw [← h] at hn
      by_cases hd : defaultPort lsch = some (Str.decToNat pstr)
      · rw [if_pos hd] at hn
        cases hn
      · rw [if_neg hd] at hn
        injection hn with hn
        subst hn
        rw [Bool.and_eq_true] at h2
        exact ⟨of_decide_eq_true h2.2, hd⟩
    · rw [if_neg h2] at h
      cases h

theorem parseSegs_wf {p : RStr} {segs : List RStr} (h : parseSegs p = some segs) :
    ¬(segs = []) ∧ ∀ s ∈ segs, segOK s = true := by
  rw [parseSegs] at h
  split_ifs at h with hall
  · injection h with h
    subst h
    exact ⟨Str.splitOnByte_ne_nil 47 p, List.all_eq_true.mp hall⟩

theorem parseAuth_wf {lsch astr : RStr} {auth : Authority}
    (h : parseAuth lsch astr = some auth) : AuthorityWF lsch auth := by
  rw [parseAuth] at h
  cases h64 : Str.splitFirst? 64 astr with
  | none =>
      simp only [h64, Option.elim] at h
      cases h58 : Str.splitFirst? 58 astr with
      | none =>
          simp only [h58, Option.elim] at h
          split_ifs at h with hcond
          cases hpp : parsePort lsch [] with
          | none => rw [hpp] at h; cases h
          | some port =>
              rw [hpp] at h
              simp only [Option.map_some'] at h
              injection h with h
              subst h
              simp only [Bool.and_eq_true] at hcond
              refine ⟨by simpa using hcond.1.1.1, hcond.1.1.2, hcond.1.2, ?_, ?_⟩
              · intro pw hpw
                cases hpw
              · exact parsePort_wf hpp
      | some hp2 =>
          simp only [h58, Option.elim] at h
          split_ifs at h with hcond
          cases hpp : parsePort lsch hp2.2 with
          | none => rw [hpp] at h; cases h
          | some port =>
              rw [hpp] at h
              simp only [Option.map_some'] at h
              injection h with h
              subst h
              simp only [Bool.and_eq_true] at hcond
              refine ⟨by simpa using hcond.1.1.1, hcond.1.1.2, hcond.1.2, ?_, ?_⟩
              · intro pw hpw
                cases hpw
              · exact parsePort_wf hpp
  | some up =>
      simp only [h64, Option.elim] at h
      cases h58u : Str.splitFirst? 58 up.1 with
      | none =>
          simp only [h58u, Option.elim] at h
          cases h58 : Str.splitFirst? 58 up.2 with
          | none =>
              simp only [h58, Option.elim] at h
              split_ifs at h with hcond
              cases hpp : parsePort lsch [] with
              | none => rw [hpp] at h; cases h
              | some port =>
                  rw [hpp] at h
                  simp only [Option.map_some'] at h
                  injection h with h
                  subst h
                  simp only [Bool.and_eq_true] at hcond
                  refine ⟨by simpa using hcond.1.1.1, hcond.1.1.2, hcond.1.2, ?_, ?_⟩
                  · intro pw hpw
                    cases hpw
                  · exact parsePort_wf hpp
          | some hp2 =>
              simp only [h58, Option.elim] at h
              split_ifs at h with hcond
              cases hpp : parsePort lsch hp2.2 with
              | none => rw [hpp] at h; cases h
              | some port =>
                  rw [hpp] at h
                  simp only [Option.map_some'] at h
                  injection h with h
                  subst h
                  simp only [Bool.and_eq_true] at hcond
                  refine ⟨by simpa using hcond.1.1.1, hcond.1.1.2, hcond.1.2, ?_, ?_⟩
                  · intro pw hpw
                    cases hpw
                  · exact parsePort_wf hpp
      | some usp =>
          simp only [h58u, Option.elim] at h
          cases h58 : Str.splitFirst? 58 up.2 with
          | none =>
              simp only [h58, Option.elim] at h
              split_ifs at h with hcond
              cases hpp : parsePort lsch [] with
              | none => rw [hpp] at h; cases h
              | some port =>
                  rw [hpp] at h
                  simp only [Option.map_some'] at h
                  injection h with h
                  subst h
                  simp only [Bool.and_eq_true] at hcond
                  refine ⟨by simpa using hcond.1.1.1, hcond.1.1.2, hcond.1.2, ?_, ?_⟩
                  · intro pw hpw
                    injection hpw with hpw
                    subst hpw
                    exact hcond.2
                  · exact parsePort_wf hpp
          | some hp2 =>
              simp only [h58, Option.elim] at h
              split_ifs at h with hcond
              cases hpp : parsePort lsch hp2.2 with
              | none => rw [hpp] at h; cases h
              | some port =>
                  rw [hpp] at h
                  simp only [Option.map_some'] at h
                  injection h with h
                  subst h
                  simp only [Bool.and_eq_true] at hcond
                  refine ⟨by simpa using hcond.1.1.1, hcond.1.1.2, hcond.1.2, ?_, ?_⟩
                  · intro pw hpw
                    injection hpw with hpw
                    subst hpw
                    exact hcond.2
                  · exact parsePort_wf hpp

theorem take2_eq_cons {p : RStr} (h : p.take 2 = [47, 47]) :
    ∃ t, p = 47 :: 47 :: t := by
  match p with
  | [] => simp at h
  | [c] => simp at h
  | c1 :: c2 :: t =>
      simp at h
      exact ⟨t, by rw [h.1, h.2]⟩

theorem parseCnb_wf {lsch rest : RStr} {u : Url}
    (h : parseCnb lsch rest = some u)
    (hsch : schemeOK lsch = true) (hlow : lsch.map Base32.lowerByte = lsch)
    (hns : isSpecialScheme lsch = false)
    (htake2 : ¬(rest.take 2 = [47, 47])) : WF u := by
  rw [parseCnb] at h
  cases hsp : Str.splitFirst? 63 rest with
  | none =>
      rw [hsp] at h
      simp only [Option.elim] at h
      split_ifs at h with hok
      injection h with h
      subst h
      refine ⟨hsch, hlow, ?_, hok, hns, htake2⟩
      intro q hq
      cases hq
  | some pq =>
      rw [hsp] at h
      simp only [Option.elim] at h
      split_ifs at h with hok
      injection h with h
      subst h
      rw [Bool.and_eq_true] at hok
      refine ⟨hsch, hlow, ?_, hok.1, hns, ?_⟩
      · intro q hq
        injection hq with hq
        subst hq
        exact hok.2
      · intro ht
        rcases take2_eq_cons ht with ⟨t, hpt⟩
        rcases Str.splitFirst_eq hsp with ⟨hre, _⟩
        apply htake2
        rw [hre, hpt]
        simp

theorem parseHier_wf {lsch r2 : RStr} {u : Url}
    (h : parseHier lsch r2 = some u)
    (hsch : schemeOK lsch = true) (hlow : lsch.map Base32.lowerByte = lsch) :
    WF u := by
  simp only [parseHier] at h
  cases hpa : parseAuth lsch
      (r2.takeWhile fun c => !(decide (c = 47) || decide (c = 63))) with
  | none => rw [hpa] at h; cases h
  | some auth =>
      rw [hpa, Option.some_bind] at h
      have hawf : AuthorityWF lsch auth := parseAuth_wf hpa
      split_ifs at h with h1 h2 h3 h4
      · injection h with h
        subst h
        refine ⟨hsch, hlow, ?_, hawf, by simp, ?_⟩
        · intro q hq
          cases hq
        · intro s hs
          simp at hs
          subst hs
          rfl
      · injection h with h
        subst h
        refine ⟨hsch, hlow, ?_, hawf, by simp, ?_⟩
        · intro q hq
          injection hq with hq
          subst hq
          exact h3
        · intro s hs
          simp at hs
          subst hs
          rfl
      · cases hsp : Str.splitFirst? 63 (r2.dropWhile
            fun c => !(decide (c = 47) || decide (c = 63))).tail with
        | none =>
            rw [hsp] at h
            simp only [Option.elim] at h
            cases hps : parseSegs (r2.dropWhile
                fun c => !(decide (c = 47) || decide (c = 63))).tail with
            | none => rw [hps] at h; cases h
            | some segs =>
                rw [hps] at h
                simp only [Option.map_some'] at h
                injection h with h
                subst h
                rcases parseSegs_wf hps with ⟨hne, hok⟩
                refine ⟨hsch, hlow, ?_, hawf, hne, hok⟩
                intro q hq
                cases hq
        | some pq =>
            rw [hsp] at h
            simp only [Option.elim] at h
            split_ifs at h with hqok
            cases hps : parseSegs pq.1 with
            | none => rw [hps] at h; cases h
            | some segs =>
                rw [hps] at h
                simp only [Option.map_some'] at h
                injection h with h
                subst h
                rcases parseSegs_wf hps with ⟨hne, hok⟩
                refine ⟨hsch, hlow, ?_, hawf, hne, hok⟩
                intro q hq
                injection hq with hq
                subst hq
                exact hqok

/-- Every URL the parser accepts is well-formed. -/
theorem parse_wf {s : RStr} {u : Url} (h : parse s = some u) : WF u := by
  rw [parse] at h
  cases hsp : Str.splitFirst? 58 s with
  | none =>
      rw [hsp] at h
      simp only [Option.elim] at h
      cases h
  | some p =>
      rw [hsp] at h
      simp only [Option.elim] at h
      split_ifs at h with h1 h2 h3
      · exact parseHier_wf h h1 (map_lowerByte_idem p.1)
      · exact parseCnb_wf h h1 (map_lowerByte_idem p.1)
          (Bool.not_eq_true _ ▸ (by simpa using h3)) h2

end Url

namespace UrlMod

/-! src/url.rs -/

/-- Rust `str::strip_prefix`. -/
def stripLit (pre s : RStr) : Option RStr :=
  if s.take pre.length = pre then some (s.drop pre.length) else none

/-- src/url.rs `parse_cid_urn_str`: strip `urn:cid:` and parse the CID. -/
def parse_cid_urn_str (s : RStr) : Option Cid :=
  (stripLit (bstr ("urn:cid:")) s).bind Cid.parse

/-- src/url.rs `parse_btmh_urn_str`: strip `urn:btmh:`. -/
def parse_btmh_urn_str (s : RStr) : Option RStr :=
  stripLit (bstr ("urn:btmh:")) s

/-- src/url.rs `into_btmh_urn_str`. -/
def into_btmh_urn_str (b : RStr) : RStr := bstr ("urn:btmh:") ++ b

/-- src/url.rs `TryFrom<&Cid> for Url` followed by `to_string`: the crate
parses `urn:cid:{cid}` and re-serializes it unchanged (the CID text is
already canonical). -/
def cidUrnStr (c : Cid) : RStr := bstr ("urn:cid:") ++ Cid.toText c

theorem stripLit_append (pre rest : RStr) : stripLit pre (pre ++ rest) = some rest := by
  rw [stripLit, if_pos]
  · congr 1
    rw [List.drop_left]
  · rw [List.take_left]

theorem parse_cid_urn_str_cidUrnStr (c : Cid) :
    parse_cid_urn_str (cidUrnStr c) = some c := by
  rw [parse_cid_urn_str, cidUrnStr, stripLit_append, Option.some_bind, Cid.parse_toText]

theorem parse_btmh_urn_str_cidUrnStr (c : Cid) :
    parse_btmh_urn_str (cidUrnStr c) = none := by
  rw [parse_btmh_urn_str, cidUrnStr, stripLit]
  rw [if_neg]
  intro he
  rw [show bstr ("urn:cid:") = [117, 114, 110, 58, 99, 105, 100, 58] from rfl,
    show bstr ("urn:btmh:") = [117, 114, 110, 58, 98, 116, 109, 104, 58] from rfl] at he
  simp at he

theorem parse_btmh_urn_str_into (b : RStr) :
    parse_btmh_urn_str (into_btmh_urn_str b) = some b :=
  stripLit_append _ b

end UrlMod

/-- src/magnet.rs `MagnetLink`. -/
structure MagnetLink where
  cid : Cid
  rs : List Url
  ws : List Url
  btmh : Option RStr
  dn : Option RStr
deriving DecidableEq

namespace MagnetLink

/-- src/magnet.rs `MagnetLink::parse`: parse the URI, group query pairs,
require an `xt` key whose first `urn:cid:` value parses, collect `rs`/`ws`
URLs (dropping unparsable ones), first `urn:btmh:` xt and first `dn`. -/
def parse (s : RStr) : Option MagnetLink :=
  (Url.parse s).bind (fun url =>
    let pairs := Form.parsePairs (url.query.elim [] (fun q => q))
    let xts := Util.getGroup pairs (bstr ("xt"))
    if xts = [] then none
    else
      (xts.findSome? UrlMod.parse_cid_urn_str).elim none (fun cid =>
        some
          { cid := cid,
            rs := (Util.getGroup pairs (bstr ("rs"))).filterMap Url.parse,
            ws := (Util.getGroup pairs (bstr ("ws"))).filterMap Url.parse,
            btmh := xts.findSome? UrlMod.parse_btmh_urn_str,
            dn := (Util.getGroup pairs (bstr ("dn"))).head? }))

/-- The query pairs appended by `From<&MagnetLink> for Url`, in order:
the `urn:cid` xt, the optional `urn:btmh` xt, the optional `dn`, every
`rs`, every `ws`. -/
def magnetPairs (m : MagnetLink) : List (RStr × RStr) :=
  (bstr ("xt"), UrlMod.cidUrnStr m.cid) ::
    (m.btmh.elim [] (fun b => [(bstr ("xt"), UrlMod.into_btmh_urn_str b)]) ++
     m.dn.elim [] (fun d => [(bstr ("dn"), d)]) ++
     m.rs.map (fun u => (bstr ("rs"), Url.render u)) ++
     m.ws.map (fun u => (bstr ("ws"), Url.render u)))

/-- src/magnet.rs `From<&MagnetLink> for Url`: start from `magnet:?` and
append the pairs with the form-urlencoded serializer. -/
def toUrl (m : MagnetLink) : Url :=
  ⟨bstr ("magnet"), .cannotBeABase [], some (Form.renderPairs (magnetPairs m))⟩

/-- src/magnet.rs `ToString for MagnetLink`. -/
def toText (m : MagnetLink) : RStr := Url.render (toUrl m)

/-- src/magnet.rs `into_rasl_url`: refashion a URL into the RASL well-known
endpoint on its authority (https, path `/.well-known/rasl/`). -/
def into_rasl_url (u : Url) : Option Url :=
  if Url.authorityStr u = [] then none
  else Url.parse (bstr ("https://") ++ Url.authorityStr u ++
    bstr ("/.well-known/rasl/"))

/-- src/magnet.rs `MagnetLink::urls`: RASL URLs (with the CID text joined
on), then the web seeds. -/
def urls (m : MagnetLink) : List Url :=
  ((m.rs.filterMap into_rasl_url).filterMap
    (fun rasl_url => Url.join rasl_url (Cid.toText m.cid))) ++ m.ws

end MagnetLink

namespace Request

/-! src/request.rs -/

/-- The network, modelled as a map from URLs to response bodies: `none` is
a transport-level failure (reqwest's `send()`/`bytes()` erroring), `some
body` a response — of any status, since `get_and_check_cid` never checks
the status — with body `body`. -/
def Net : Type := Url → Option (List Nat)

/-- src/request.rs `get_and_check_cid`: GET the URL, hash the body,
return it only if its CID matches; transport errors and integrity
mismatches are both errors (collapsed to `none`; the callers treat every
error alike, by skipping to the next candidate or answering 400). -/
def get_and_check_cid (net : Net) (url : Url) (cid : Cid) : Option (List Nat) :=
  (net url).bind (fun body => if Cid.of body = cid then some body else none)

/-- Modelled from the spec: `request::get_cid`, the function server.rs
calls, is absent from src/request.rs (which defines `get_and_check_cid`);
spec §4.4 specifies the integrity fetcher as GET-then-verify, identical to
`get_and_check_cid`. -/
def get_cid (net : Net) (url : Url) (cid : Cid) : Option (List Nat) :=
  get_and_check_cid net url cid

end Request

namespace CmdGet

/-! src/bin/main.rs `cmd_get` -/

/-- The fetch loop of `cmd_get`: try `get_and_check_cid` on each candidate
in order, write the first success to stdout and stop; after exhausting the
candidates print "Resource not found".  The value is the stdout payload
(`none` = not found). -/
def fetchLoop (net : Request.Net) (cid : Cid) : List Url → Option (List Nat)
  | [] => none
  | url :: rest =>
      match Request.get_and_check_cid net url cid with
      | some body => some body
      | none => fetchLoop net cid rest

/-- `cmd_get` after parsing the magnet link: iterate over `mag.urls()`. -/
def run (net : Request.Net) (m : MagnetLink) : Option (List Nat) :=
  fetchLoop net m.cid (MagnetLink.urls m)

theorem fetchLoop_none_iff (net : Request.Net) (cid : Cid) (l : List Url) :
    fetchLoop net cid l = none ↔
      ∀ u ∈ l, Request.get_and_check_cid net u cid = none := by
  induction l with
  | nil => simp [fetchLoop]
  | cons url rest ih =>
      rw [fetchLoop]
      cases hc : Request.get_and_check_cid net url cid with
      | some body => simp [hc]
      | none => simp [hc, ih]

theorem fetchLoop_some_iff (net : Request.Net) (cid : Cid) (l : List Url)
    (b : List Nat) :
    fetchLoop net cid l = some b ↔
      ∃ pre u post, l = pre ++ u :: post ∧
        (∀ v ∈ pre, Request.get_and_check_cid net v cid = none) ∧
        Request.get_and_check_cid net u cid = some b := by
  induction l with
  | nil =>
      simp [fetchLoop]
  | cons url rest ih =>
      rw [fetchLoop]
      cases hc : Request.get_and_check_cid net url cid with
      | some body =>
          simp only
          constructor
          · intro hb
            injection hb with hb
            exact ⟨[], url, rest, by simp, by simp, by rw [hc, hb]⟩
          · rintro ⟨pre, u, post, hsplit, hpre, hu⟩
            cases pre with
            | nil =>
                simp at hsplit
                rw [← hsplit.1] at hu
                rw [hc] at hu
                exact hu
            | cons v vs =>
                simp at hsplit
                have hv := hpre v (by simp)
                rw [← hsplit.1] at hv
                rw [hv] at hc
                cases hc
      | none =>
          rw [ih]
          constructor
          · rintro ⟨pre, u, post, hsplit, hpre, hu⟩
            refine ⟨url :: pre, u, post, by rw [hsplit]; rfl, ?_, hu⟩
            intro v hv
            rcases List.mem_cons.mp hv with rfl | hv
            · exact hc
            · exact hpre v hv
          · rintro ⟨pre, u, post, hsplit, hpre, hu⟩
            cases pre with
            | nil =>
                simp at hsplit
                rw [← hsplit.1] at hu
                rw [hc] at hu
                cases hu
            | cons v vs =>
                simp at hsplit
                refine ⟨vs, u, post, hsplit.2, ?_, hu⟩
                intro w hw
                exact hpre w (by simp [hw])

theorem get_and_check_cid_integrity {net : Request.Net} {u : Url} {cid : Cid}
    {b : List Nat} (h : Request.get_and_check_cid net u cid = some b) :
    Cid.of b = cid := by
  rw [Request.get_and_check_cid] at h
  cases hn : net u with
  | none => rw [hn] at h; cases h
  | some body =>
      rw [hn, Option.some_bind] at h
      by_cases hcid : Cid.of body = cid
      · rw [if_pos hcid] at h
        injection h with h
        rw [← h]
        exact hcid
      · rw [if_neg hcid] at h
        cases h

end CmdGet

namespace Peers

/-! src/peers.rs -/

/-- Membership of a URL's origin in an origin set (`HashSet<Origin>`,
modelled as a list up to order).  A non-special URL's opaque origin equals
nothing in the url crate (each `origin()` call makes a fresh one), so it is
a member of no set. -/
def originMem (s : List Url.OriginV) (o : Option Url.OriginV) : Bool :=
  o.elim false (fun ov => decide (ov ∈ s))

/-- src/peers.rs `should_allow_peer`: the deny list is always honored;
otherwise allow_all wins; otherwise the allow list decides. -/
def should_allow_peer (peer : Url) (allow deny : List Url.OriginV)
    (allow_all : Bool) : Bool :=
  if originMem deny (Url.origin? peer) then false
  else if allow_all then true
  else originMem allow (Url.origin? peer)

end Peers

namespace Server

/-! src/server.rs -/

/-- src/server.rs `should_notify` (same body as `should_allow_peer`). -/
def should_notify (peer : Url) (allow deny : List Url.OriginV)
    (allow_all : Bool) : Bool :=
  if Peers.originMem deny (Url.origin? peer) then false
  else if allow_all then true
  else Peers.originMem allow (Url.origin? peer)

/-- The fields of src/server.rs `ServerConfig` that `post_notify` reads. -/
structure ServerConfig where
  allow_all : Bool
  allow : List Url.OriginV
  deny : List Url.OriginV

/-- src/server.rs `NotifyTask`. -/
structure NotifyTask where
  cid : Cid
  url : Url
deriving DecidableEq

/-- Everything observable about one `post_notify` call: the HTTP status
and body, the URL the integrity fetcher GETs (if reached), and the task
handed to the gossip queue (if any). -/
structure NotifyResult where
  status : Nat
  body : RStr
  fetched : Option Url
  queued : Option NotifyTask
deriving DecidableEq

/-- src/server.rs `post_notify`, I/O parametrized: `store` is the blob
existence check `file_path.exists()`, `net` the outbound HTTP used by
`request::get_cid`, `writeOk` whether `fs::write` succeeds, `queueFull`
whether `try_send` fails (full queue: drop the task, still 201).
`peerHeader` and `cidHeader` are the raw `magnetize-peer` and
`magnetize-cid` header values (`none` = absent; an unparsable value and a
missing one take the same 400 path). -/
def post_notify (cfg : ServerConfig) (store : Cid → Bool) (net : Request.Net)
    (writeOk : Bool) (queueFull : Bool)
    (peerHeader cidHeader : Option RStr) : NotifyResult :=
  (peerHeader.bind Url.parse).elim
    ⟨400, bstr ("magnetize-peer header missing or invalid"), none, none⟩
    (fun peer =>
      if !(should_notify peer cfg.allow cfg.deny cfg.allow_all) then
        ⟨400, bstr ("Untrusted peer"), none, none⟩
      else
        (cidHeader.bind Cid.parse).elim
          ⟨400, bstr ("magnetize-cid header missing or invalid"), none, none⟩
          (fun cid =>
            if store cid then ⟨200, bstr ("Resource exists"), none, none⟩
            else
              (Url.join peer (Cid.toText cid)).elim
                ⟨400, bstr ("Invalid URL"), none, none⟩
                (fun url =>
                  (Request.get_cid net url cid).elim
                    ⟨400, bstr ("CID not found ") ++ Cid.toText cid, some url, none⟩
                    (fun _body =>
                      if !writeOk then
                        ⟨500, bstr ("Failed to create resource"), some url, none⟩
                      else
                        ⟨201, Cid.toText cid, some url,
                          if queueFull then none else some ⟨cid, url⟩⟩))))

/-- src/server.rs `notify_worker`'s per-task peer selection:
`random_choice(notify_peers.clone(), 12)`; the shuffle inside
`random_choice` is modelled by passing the shuffled list explicitly. -/
def workerSelect (shuffledPeers : List Url) : List Url :=
  Util.random_choice shuffledPeers 12

end Server

/-! ## Claim theorems -/

/-- C7: for every byte string `b`, `Cid::parse (Cid::of(b).to_string())`
succeeds and yields `Cid::of(b)`, and `Cid::parse_bytes (Cid::of(b).to_bytes())`
succeeds and yields `Cid::of(b)` — the textual and binary CID round-trips. -/
theorem C7_cid_roundtrip (b : List Nat) :
    Cid.parse (Cid.toText (Cid.of b)) = some (Cid.of b) ∧
    Cid.parse_bytes (Cid.to_bytes (Cid.of b)) = some (Cid.of b) :=
  ⟨Cid.parse_toText (Cid.of b), Cid.parse_bytes_to_bytes (Cid.of b)⟩

/-- C2: if the peer URL's origin is a member of the deny set, then both
`should_allow_peer` (src/peers.rs) and `should_notify` (src/server.rs)
return false, for every allow set and both values of `allow_all`. -/
theorem C2_deny_overrides (peer : Url) (allow deny : List Url.OriginV)
    (allow_all : Bool)
    (h : Peers.originMem deny (Url.origin? peer) = true) :
    Peers.should_allow_peer peer allow deny allow_all = false ∧
    Server.should_notify peer allow deny allow_all = false := by
  constructor
  · rw [Peers.should_allow_peer, if_pos h]
  · rw [Server.should_notify, if_pos h]

def c2Peer : Url :=
  ⟨bstr ("https"), .hier ⟨[], none, bstr ("denied.com"), none⟩
    [bstr ("resource")], none⟩

def c2Deny : List Url.OriginV :=
  [.tuple (bstr ("https")) (bstr ("denied.com")) 443]

theorem C2_deny_overrides_witness :
    Peers.should_allow_peer c2Peer [] c2Deny true = false ∧
    Server.should_notify c2Peer [] c2Deny true = false :=
  C2_deny_overrides c2Peer [] c2Deny true (by decide)

/-- C9: per gossip job, the worker's peer selection
`random_choice(notify_peers, 12)` (src/util.rs, src/server.rs) picks
exactly `min 12 |notify_peers|` peers, all members of `notify_peers`, with
no duplicates; the shuffle is modelled by quantifying over every
permutation of `notify_peers`. -/
theorem C9_gossip_cardinality (notify_peers shuffled : List Url)
    (hperm : shuffled.Perm notify_peers) (hnd : notify_peers.Nodup) :
    (Server.workerSelect shuffled).length = min 12 notify_peers.length ∧
    (∀ u ∈ Server.workerSelect shuffled, u ∈ notify_peers) ∧
    (Server.workerSelect shuffled).Nodup := by
  refine ⟨?_, ?_, ?_⟩
  · rw [Server.workerSelect, Util.random_choice, List.length_take,
      hperm.length_eq]
  · intro u hu
    exact hperm.mem_iff.mp (List.mem_of_mem_take hu)
  · exact List.Nodup.sublist (List.take_sublist 12 shuffled)
      (hperm.nodup_iff.mpr hnd)

def c9A : Url := ⟨bstr ("http"), .hier ⟨[], none, bstr ("a"), none⟩ [[]], none⟩

def c9B : Url := ⟨bstr ("http"), .hier ⟨[], none, bstr ("b"), none⟩ [[]], none⟩

def c9C : Url := ⟨bstr ("http"), .hier ⟨[], none, bstr ("c"), none⟩ [[]], none⟩

theorem C9_gossip_cardinality_witness :
    (Server.workerSelect [c9C, c9A, c9B]).length = min 12 [c9A, c9B, c9C].length ∧
    (∀ u ∈ Server.workerSelect [c9C, c9A, c9B], u ∈ [c9A, c9B, c9C]) ∧
    (Server.workerSelect [c9C, c9A, c9B]).Nodup :=
  C9_gossip_cardinality [c9A, c9B, c9C] [c9C, c9A, c9B] (by decide) (by decide)

/-- C1: the CLI get fetch loop (src/bin/main.rs `cmd_get`, over
`mag.urls()` with src/request.rs `get_and_check_cid`) returns the body of
the first candidate whose response body hashes to `m.cid` (candidates that
fail transport or integrity are skipped); it reports not-found (`none`)
exactly when no candidate yields such a body; and it never returns bytes
whose CID differs from `m.cid`. -/
theorem C1_fetcher_integrity (net : Request.Net) (m : MagnetLink) :
    (∀ b, CmdGet.run net m = some b → Cid.of b = m.cid) ∧
    (∀ b, CmdGet.run net m = some b ↔
      ∃ pre u post, MagnetLink.urls m = pre ++ u :: post ∧
        (∀ v ∈ pre, Request.get_and_check_cid net v m.cid = none) ∧
        Request.get_and_check_cid net u m.cid = some b) ∧
    (CmdGet.run net m = none ↔
      ∀ u ∈ MagnetLink.urls m, Request.get_and_check_cid net u m.cid = none) := by
  refine ⟨?_, ?_, ?_⟩
  · intro b hb
    rw [CmdGet.run, CmdGet.fetchLoop_some_iff] at hb
    rcases hb with ⟨_, u, _, _, _, hu⟩
    exact CmdGet.get_and_check_cid_integrity hu
  · intro b
    exact CmdGet.fetchLoop_some_iff net m.cid (MagnetLink.urls m) b
  · exact CmdGet.fetchLoop_none_iff net m.cid (MagnetLink.urls m)

def c1Url : Url :=
  ⟨bstr ("https"), .hier ⟨[], none, bstr ("example.com"), none⟩
    [bstr ("file.txt")], none⟩

def c1Body : List Nat := bstr ("hello world")

def c1Net : Request.Net := fun u => if u = c1Url then some c1Body else none

def c1Magnet : MagnetLink := ⟨Cid.of c1Body, [], [c1Url], none, none⟩

theorem C1_fetcher_integrity_witness :
    CmdGet.run c1Net c1Magnet = some c1Body ∧ Cid.of c1Body = c1Magnet.cid := by
  have hcheck : Request.get_and_check_cid c1Net c1Url (Cid.of c1Body) =
      some c1Body := by
    rw [Request.get_and_check_cid, show c1Net c1Url = some c1Body from by
      rw [c1Net, if_pos rfl], Option.some_bind, if_pos rfl]
  have hrun : CmdGet.run c1Net c1Magnet = some c1Body := by
    rw [CmdGet.run, show MagnetLink.urls c1Magnet = [c1Url] from rfl,
      CmdGet.fetchLoop, show c1Magnet.cid = Cid.of c1Body from rfl, hcheck]
  exact ⟨hrun, (C1_fetcher_integrity c1Net c1Magnet).1 c1Body hrun⟩

set_option maxRecDepth 100000

/-- C5 counterexample: `MagnetLink::parse` on the exact input
`magnet:?cid=bafkreiayssqzzbn2cu5mx52dvrheh7aajsermbfsn6ggtypih2rk7r6er4`
fails (src/magnet.rs requires an `xt` parameter carrying `urn:cid:…`; a
`cid` query key is not read), contradicting the claim that it succeeds. -/
theorem C5_cid_param_rejected :
    MagnetLink.parse (bstr
      ("magnet:?cid=bafkreiayssqzzbn2cu5mx52dvrheh7aajsermbfsn6ggtypih2rk7r6er4")) =
      none := by
  decide

/-- C5 amended: the minimal magnet link carries the CID as
`xt=urn:cid:{cid}`; parsing
`magnet:?xt=urn:cid:bafkreiayssqzzbn2cu5mx52dvrheh7aajsermbfsn6ggtypih2rk7r6er4`
succeeds with that CID and `ws` empty, `rs` empty, `btmh` absent, `dn`
absent. -/
theorem C5_minimal_parse :
    MagnetLink.parse (bstr
      ("magnet:?xt=urn:cid:bafkreiayssqzzbn2cu5mx52dvrheh7aajsermbfsn6ggtypih2rk7r6er4")) =
      (Cid.parse (bstr
        ("bafkreiayssqzzbn2cu5mx52dvrheh7aajsermbfsn6ggtypih2rk7r6er4"))).map
        (fun c => ⟨c, [], [], none, none⟩) ∧
    (Cid.parse (bstr
      ("bafkreiayssqzzbn2cu5mx52dvrheh7aajsermbfsn6ggtypih2rk7r6er4"))).isSome =
      true := by
  constructor
  · decide
  · decide

/-- C10: `MagnetLink::parse` never validates the URI scheme: parsing an
`https:` URL carrying `xt=urn:cid:{valid CID}` succeeds, and in general a
string parses as a magnet link exactly when it parses as a URL and some
`xt` query value is a valid `urn:cid:` — the scheme is never consulted. -/
theorem C10_scheme_not_validated :
    MagnetLink.parse (bstr
      ("https://example.com/?xt=urn:cid:bafkreiayssqzzbn2cu5mx52dvrheh7aajsermbfsn6ggtypih2rk7r6er4")) =
      (Cid.parse (bstr
        ("bafkreiayssqzzbn2cu5mx52dvrheh7aajsermbfsn6ggtypih2rk7r6er4"))).map
        (fun c => ⟨c, [], [], none, none⟩) ∧
    (∀ s : RStr, (MagnetLink.parse s).isSome = true ↔
      ∃ u, Url.parse s = some u ∧
        ∃ xt ∈ Util.getGroup (Form.parsePairs (u.query.elim [] (fun q => q)))
          (bstr ("xt")), (UrlMod.parse_cid_urn_str xt).isSome = true) := by
  constructor
  · decide
  · intro s
    rw [MagnetLink.parse]
    cases hu : Url.parse s with
    | none =>
        simp
    | some u =>
        rw [Option.some_bind]
        simp only
        by_cases hx : Util.getGroup
            (Form.parsePairs (u.query.elim [] (fun q => q))) (bstr ("xt")) = []
        · rw [if_pos hx]
          simp only [Option.isSome_none, Bool.false_eq_true, false_iff]
          rintro ⟨u', hu', xt, hxt, _⟩
          injection hu' with hu'
          subst hu'
          rw [hx] at hxt
          simp at hxt
        · rw [if_neg hx]
          cases hfs : (Util.getGroup
              (Form.parsePairs (u.query.elim [] (fun q => q)))
              (bstr ("xt"))).findSome? UrlMod.parse_cid_urn_str with
          | none =>
              simp only [Option.elim, Option.isSome_none, Bool.false_eq_true,
                false_iff]
              rintro ⟨u', hu', xt, hxt, hxs⟩
              injection hu' with hu'
              subst hu'
              rw [List.findSome?_eq_none_iff.mp hfs xt hxt] at hxs
              simp at hxs
          | some c =>
              simp only [Option.elim, Option.isSome_some, true_iff]
              rcases List.exists_of_findSome?_eq_some hfs with ⟨xt, hxt, hxtc⟩
              refine ⟨u, rfl, xt, hxt, ?_⟩
              rw [hxtc]
              rfl

def c3Peer : Url :=
  ⟨bstr ("https"), .hier ⟨[], none, bstr ("allowed.com"), none⟩ [bstr ("x")], none⟩

def c3CidText : RStr :=
  bstr ("bafkreiayssqzzbn2cu5mx52dvrheh7aajsermbfsn6ggtypih2rk7r6er4")

def c3Cid : Cid :=
  ⟨[24, 148, 161, 156, 133, 186, 21, 58, 203, 247, 67, 172, 78, 67, 252, 0,
    76, 137, 22, 4, 178, 111, 140, 105, 225, 232, 62, 162, 175, 199, 196, 143],
   by decide, by decide⟩

/-- C3 counterexample: a `POST /notify` whose headers are present and
valid and whose CID is already stored, but whose pull URL's origin is
denied, answers 400 "Untrusted peer" — not 200 "Resource exists": in
src/server.rs `post_notify` the trust check runs before the exists check. -/
theorem C3_trust_before_exists_counterexample :
    Server.post_notify
      ⟨true, [], [.tuple (bstr ("https")) (bstr ("allowed.com")) 443]⟩
      (fun _ => true) (fun _ => none) true false
      (some (bstr ("https://allowed.com/x"))) (some c3CidText) =
      ⟨400, bstr ("Untrusted peer"), none, none⟩ := by
  decide

/-- C3 amended: for every `POST /notify` whose two headers are present and
valid, whose pull URL passes the trust check, and whose CID already has a
file in the blob store, the handler responds 200 "Resource exists" and
enqueues no gossip job; the trust check precedes the exists check, so the
short-circuit only applies to trusted peers. -/
theorem C3_exists_short_circuit (cfg : Server.ServerConfig) (store : Cid → Bool)
    (net : Request.Net) (writeOk queueFull : Bool) (ps cs : RStr)
    (peer : Url) (cid : Cid)
    (hp : Url.parse ps = some peer) (hc : Cid.parse cs = some cid)
    (htrust : Server.should_notify peer cfg.allow cfg.deny cfg.allow_all = true)
    (hstore : store cid = true) :
    Server.post_notify cfg store net writeOk queueFull (some ps) (some cs) =
      ⟨200, bstr ("Resource exists"), none, none⟩ := by
  rw [Server.post_notify, Option.some_bind, hp]
  simp only [Option.elim, htrust, Bool.not_true, Bool.false_eq_true, if_false]
  rw [Option.some_bind, hc]
  simp only [Option.elim]
  rw [if_pos hstore]

def c3Cfg : Server.ServerConfig :=
  ⟨false, [.tuple (bstr ("https")) (bstr ("allowed.com")) 443], []⟩

theorem C3_exists_short_circuit_witness :
    Server.post_notify c3Cfg (fun _ => true) (fun _ => none) true false
      (some (bstr ("https://allowed.com/x"))) (some c3CidText) =
      ⟨200, bstr ("Resource exists"), none, none⟩ := by
  exact C3_exists_short_circuit c3Cfg (fun _ => true) (fun _ => none) true false
    (bstr ("https://allowed.com/x")) c3CidText c3Peer c3Cid
    (by decide) (by decide) (by decide) rfl

def c4Cfg : Server.ServerConfig := ⟨true, [], []⟩

/-- C4 counterexample: for a trusted peer and an unstored CID, the
integrity fetcher's outbound GET targets the pull-URL header joined with
the CID text (replacing the last path segment), not the header URL itself:
with pull URL `https://allowed.com/x`, the fetched URL is
`https://allowed.com/{cid}`, which differs from the header URL. -/
theorem C4_fetch_url_counterexample :
    (Server.post_notify c4Cfg (fun _ => false) (fun _ => none) true false
      (some (bstr ("https://allowed.com/x"))) (some c3CidText)).fetched =
      some ⟨bstr ("https"), .hier ⟨[], none, bstr ("allowed.com"), none⟩
        [c3CidText], none⟩ ∧
    ¬((Server.post_notify c4Cfg (fun _ => false) (fun _ => none) true false
      (some (bstr ("https://allowed.com/x"))) (some c3CidText)).fetched =
      some ⟨bstr ("https"), .hier ⟨[], none, bstr ("allowed.com"), none⟩
        [bstr ("x")], none⟩) := by
  constructor
  · decide
  · decide

/-- C4 amended: for every `POST /notify` that passes the trust check with
an unstored CID, the integrity fetcher's outbound GET targets the pull-URL
header joined with the CID text (`peer.join(cid.to_string())`), whenever
that join succeeds. -/
theorem C4_fetch_targets_join (cfg : Server.ServerConfig) (store : Cid → Bool)
    (net : Request.Net) (writeOk queueFull : Bool) (ps cs : RStr)
    (peer url : Url) (cid : Cid)
    (hp : Url.parse ps = some peer) (hc : Cid.parse cs = some cid)
    (htrust : Server.should_notify peer cfg.allow cfg.deny cfg.allow_all = true)
    (hstore : store cid = false)
    (hjoin : Url.join peer (Cid.toText cid) = some url) :
    (Server.post_notify cfg store net writeOk queueFull
      (some ps) (some cs)).fetched = some url := by
  rw [Server.post_notify, Option.some_bind, hp]
  simp only [Option.elim, htrust, Bool.not_true, Bool.false_eq_true, if_false]
  rw [Option.some_bind, hc]
  simp only [Option.elim]
  rw [if_neg (by rw [hstore]; simp), hjoin]
  simp only [Option.elim]
  cases Request.get_cid net url cid with
  | none => rfl
  | some body =>
      simp only [Option.elim]
      by_cases hw : writeOk
      · rw [hw]
        simp
      · simp only [Bool.not_eq_true] at hw
        rw [hw]
        simp

theorem C4_fetch_targets_join_witness :
    (Server.post_notify c4Cfg (fun _ => false) (fun _ => none) true false
      (some (bstr ("https://allowed.com/x"))) (some c3CidText)).fetched =
      some ⟨bstr ("https"), .hier ⟨[], none, bstr ("allowed.com"), none⟩
        [c3CidText], none⟩ := by
  exact C4_fetch_targets_join c4Cfg (fun _ => false) (fun _ => none) true false
    (bstr ("https://allowed.com/x")) c3CidText c3Peer
    ⟨bstr ("https"), .hier ⟨[], none, bstr ("allowed.com"), none⟩ [c3CidText], none⟩
    c3Cid (by decide) (by decide) (by decide) rfl (by decide)
def c6Base : Url :=
  ⟨bstr ("https"), .hier ⟨[], none, bstr ("cdn.example.com"), none⟩
    [bstr ("sub")], none⟩

/-- C6 counterexample: for a magnet link whose single RASL seed is
`https://cdn.example.com/sub`, the candidate list is the authority's
well-known RASL endpoint with the CID text joined on
(`https://cdn.example.com/.well-known/rasl/{cid}`), not the base joined
unmodified with the CID text (`https://cdn.example.com/{cid}`): `urls`
first rewrites every `rs` base through `into_rasl_url`, discarding its
path. -/
theorem C6_urls_counterexample :
    MagnetLink.urls ⟨c3Cid, [c6Base], [], none, none⟩ =
      [⟨bstr ("https"), .hier ⟨[], none, bstr ("cdn.example.com"), none⟩
        [bstr (".well-known"), bstr ("rasl"), c3CidText], none⟩] ∧
    ¬(MagnetLink.urls ⟨c3Cid, [c6Base], [], none, none⟩ =
      [c6Base].filterMap (fun base => Url.join base (Cid.toText c3Cid)) ++
        ([] : List Url)) := by
  constructor
  · decide
  · decide

/-- C6 amended: the candidate URL list is each `rs` base rewritten to its
authority's RASL well-known endpoint and then joined with the CID text
(joins and rewrites that fail are dropped silently, order preserved),
followed by the `ws` entries unchanged and in order — so every
RASL-derived entry precedes every `ws` entry, and every RASL-derived
entry has the CID text as its final path segment and no query. -/
theorem C6_urls_rasl (m : MagnetLink) :
    MagnetLink.urls m =
      (m.rs.filterMap (fun base =>
        (MagnetLink.into_rasl_url base).bind
          (fun r => Url.join r (Cid.toText m.cid)))) ++ m.ws ∧
    ∀ u ∈ m.rs.filterMap (fun base =>
        (MagnetLink.into_rasl_url base).bind
          (fun r => Url.join r (Cid.toText m.cid))),
      ∃ sch a segs, u = ⟨sch, .hier a (segs ++ [Cid.toText m.cid]), none⟩ := by
  constructor
  · rw [MagnetLink.urls]
    rw [List.filterMap_filterMap]
  · intro u hu
    rcases List.mem_filterMap.mp hu with ⟨base, _, he⟩
    cases hr : MagnetLink.into_rasl_url base with
    | none => rw [hr] at he; exact absurd he (by simp)
    | some r =>
        rw [hr, Option.some_bind, Url.join] at he
        rcases r with ⟨rsch, rbody, rq⟩
        cases rbody with
        | cannotBeABase p => exact absurd he (by simp)
        | hier a segs =>
            simp only at he
            by_cases hcond : (!(Cid.toText m.cid = []) &&
                (Cid.toText m.cid).all (fun c => segCharOK c && !(c = 58)) &&
                !(Cid.toText m.cid = bstr (".")) &&
                !(Cid.toText m.cid = bstr (".."))) = true
            · rw [if_pos hcond] at he
              rcases Option.some.inj he with rfl
              exact ⟨rsch, a, segs.dropLast, rfl⟩
            · rw [if_neg hcond] at he
              exact absurd he (by simp)

theorem getD_alpha_le (n : Nat) : Base32.alpha.getD n 0 ≤ 90 := by
  by_cases h : n < Base32.alpha.length
  · rw [List.getD_eq_get _ _ h]
    exact (by decide : ∀ x ∈ Base32.alpha, x ≤ 90) _ (Base32.alpha.get_mem _ _)
  · rw [List.getD_eq_default _ _ (Nat.le_of_not_lt h)]
    omega

theorem encode_le (l : List Nat) : ∀ x ∈ Base32.encode l, x ≤ 90 := by
  intro x hx
  rw [Base32.encode] at hx
  rcases List.mem_map.mp hx with ⟨c, _, rfl⟩
  exact getD_alpha_le _

theorem lowerByte_le (c : Nat) : Base32.lowerByte c ≤ c + 32 := by
  rw [Base32.lowerByte]
  split <;> omega

theorem toText_lt (c : Cid) : ∀ x ∈ Cid.toText c, x < 256 := by
  intro x hx
  rw [Cid.toText] at hx
  rcases List.mem_map.mp hx with ⟨y, hy, rfl⟩
  have h1 : y ≤ 98 := by
    rcases List.mem_append.mp hy with h | h
    · rw [show bstr ("b") = [98] from rfl] at h
      simp at h
      omega
    · exact Nat.le_trans (encode_le _ y h) (by omega)
  exact Nat.lt_of_le_of_lt (lowerByte_le y) (by omega)

theorem hexDigitUpper_range (n : Nat) (h : n < 16) :
    48 ≤ Form.hexDigitUpper n ∧ Form.hexDigitUpper n ≤ 70 ∧
      ¬(Form.hexDigitUpper n = 35) := by
  rw [Form.hexDigitUpper]
  split <;> omega

theorem encodeByte_range (c : Nat) (hc : c < 256) :
    ∀ x ∈ Form.encodeByte c, 33 ≤ x ∧ x ≤ 126 ∧ ¬(x = 35) := by
  intro x hx
  rw [Form.encodeByte] at hx
  by_cases hs : Form.formSafe c
  · rw [if_pos hs] at hx
    simp at hx
    subst hx
    simp [Form.formSafe, Form.isAlnum] at hs
    rcases hs with ((h | h) | h) | h <;> omega
  · rw [if_neg hs] at hx
    by_cases h32 : c = 32
    · rw [if_pos h32] at hx
      simp at hx
      omega
    · rw [if_neg h32] at hx
      simp at hx
      rcases hx with h | h | h
      · omega
      · have := hexDigitUpper_range (c / 16) (by omega)
        omega
      · have := hexDigitUpper_range (c % 16) (by omega)
        omega

theorem renderPairs_queryOK (pairs : List (RStr × RStr))
    (h : ∀ p ∈ pairs, (∀ x ∈ p.1, x < 256) ∧ (∀ x ∈ p.2, x < 256)) :
    (Form.renderPairs pairs).all queryCharOK = true := by
  rw [List.all_eq_true]
  intro x hx
  rw [Form.renderPairs] at hx
  rcases Url.mem_intercalate hx with rfl | ⟨piece, hp, hxp⟩
  · decide
  · rcases List.mem_map.mp hp with ⟨p, hpmem, rfl⟩
    rw [Form.encPiece] at hxp
    have hrange : 33 ≤ x ∧ x ≤ 126 ∧ ¬(x = 35) := by
      rcases List.mem_append.mp hxp with h1 | h2
      · rcases List.mem_flatMap.mp h1 with ⟨c, hc, hxc⟩
        exact encodeByte_range c ((h p hpmem).1 c hc) x hxc
      · rcases List.mem_cons.mp h2 with rfl | h3
        · omega
        · rcases List.mem_flatMap.mp h3 with ⟨c, hc, hxc⟩
          exact encodeByte_range c ((h p hpmem).2 c hc) x hxc
    rw [queryCharOK]
    simp only [decide_eq_true_eq]
    exact ⟨hrange.1, hrange.2.1, hrange.2.2⟩

theorem getGroup_cons (kv : RStr × RStr) (pairs : List (RStr × RStr)) (k : RStr) :
    Util.getGroup (kv :: pairs) k =
      if kv.1 = k then kv.2 :: Util.getGroup pairs k else Util.getGroup pairs k := by
  simp only [Util.getGroup, List.filter_cons]
  by_cases h : kv.1 = k
  · simp [h]
  · simp [h]

theorem getGroup_append (l1 l2 : List (RStr × RStr)) (k : RStr) :
    Util.getGroup (l1 ++ l2) k = Util.getGroup l1 k ++ Util.getGroup l2 k := by
  simp [Util.getGroup, List.filter_append]

theorem getGroup_map_ne {α : Type} (kk k : RStr) (g : α → RStr) (l : List α)
    (h : ¬(kk = k)) : Util.getGroup (l.map (fun u => (kk, g u))) k = [] := by
  induction l with
  | nil => rfl
  | cons a t ih =>
      rw [List.map_cons, getGroup_cons, if_neg h]
      exact ih

theorem getGroup_map_eq {α : Type} (k : RStr) (g : α → RStr) (l : List α) :
    Util.getGroup (l.map (fun u => (k, g u))) k = l.map g := by
  induction l with
  | nil => rfl
  | cons a t ih =>
      rw [List.map_cons, getGroup_cons, if_pos rfl, ih, List.map_cons]

theorem filterMap_parse_render (l : List Url) (h : ∀ u ∈ l, Url.WF u) :
    (l.map Url.render).filterMap Url.parse = l := by
  induction l with
  | nil => rfl
  | cons u t ih =>
      rw [List.map_cons, List.filterMap_cons,
        Url.parse_render u (h u (List.mem_cons_self u t))]
      show u :: (t.map Url.render).filterMap Url.parse = u :: t
      rw [ih (fun v hv => h v (List.mem_cons_of_mem u hv))]

theorem schemeOK_le {s : RStr} (h : schemeOK s = true) : ∀ x ∈ s, x ≤ 122 := by
  intro x hx
  cases s with
  | nil => simp at hx
  | cons c r =>
      rw [schemeOK, Bool.and_eq_true] at h
      have h2 := h.2
      rw [List.all_eq_true] at h2
      have h3 := h2 x hx
      rw [schemeCharOK] at h3
      simp only [decide_eq_true_eq] at h3
      omega

theorem renderAuth_lt {lsch : RStr} {a : Authority} (h : Url.AuthorityWF lsch a) :
    ∀ x ∈ Url.renderAuth a, x < 256 := by
  rcases a with ⟨user, pass, host, port⟩
  rcases h with ⟨hh1, hh2, hu, hp, hport⟩
  simp only at hh2 hu hp
  intro x hx
  rw [Url.renderAuth] at hx
  simp only [] at hx
  rcases List.mem_append.mp hx with h1 | h2
  · rcases List.mem_append.mp h1 with h3 | h4
    · by_cases hc : user = [] ∧ pass = none
      · rw [if_pos hc] at h3
        simp at h3
      · rw [if_neg hc] at h3
        rcases List.mem_append.mp h3 with h5 | h6
        · rcases List.mem_append.mp h5 with h7 | h8
          · rw [List.all_eq_true] at hu
            have h9 := hu x h7
            rw [userCharOK] at h9
            simp only [decide_eq_true_eq] at h9
            omega
          · cases pass with
            | none => simp at h8
            | some p =>
                have hp2 := hp p rfl
                rw [List.all_eq_true] at hp2
                rcases List.mem_cons.mp h8 with rfl | h9
                · omega
                · have h10 := hp2 x h9
                  rw [passCharOK] at h10
                  simp only [decide_eq_true_eq] at h10
                  omega
        · simp at h6
          omega
    · rw [List.all_eq_true] at hh2
      have h9 := hh2 x h4
      rw [hostCharOK] at h9
      simp only [decide_eq_true_eq] at h9
      omega
  · cases port with
    | none => simp at h2
    | some n =>
        rcases List.mem_cons.mp h2 with rfl | h9
        · omega
        · have := Str.natToDec_digits n x h9
          omega

theorem renderQuery_lt {query : Option RStr}
    (hq : ∀ q, query = some q → q.all queryCharOK = true) :
    ∀ x ∈ Url.renderQuery query, x < 256 := by
  intro x hx
  cases query with
  | none => simp [Url.renderQuery] at hx
  | some q =>
      rw [Url.renderQuery] at hx
      rcases List.mem_cons.mp hx with rfl | h
      · omega
      · have h2 := hq q rfl
        rw [List.all_eq_true] at h2
        have h3 := h2 x h
        rw [queryCharOK] at h3
        simp only [decide_eq_true_eq] at h3
        omega

theorem render_lt {u : Url} (h : Url.WF u) : ∀ x ∈ Url.render u, x < 256 := by
  rcases u with ⟨sch, body, query⟩
  cases body with
  | cannotBeABase p =>
      rcases h with ⟨hsch, _, hq, hcnb, _, _⟩
      simp only at hsch hq hcnb
      intro x hx
      rw [Url.render] at hx
      simp only [] at hx
      rcases List.mem_append.mp hx with h1 | h2
      · exact Nat.lt_of_le_of_lt (schemeOK_le hsch x h1) (by omega)
      · rcases List.mem_cons.mp h2 with rfl | h3
        · omega
        · rcases List.mem_append.mp h3 with h4 | h5
          · rw [List.all_eq_true] at hcnb
            have h6 := hcnb x h4
            rw [cnbCharOK] at h6
            simp only [decide_eq_true_eq] at h6
            omega
          · exact renderQuery_lt hq x h5
  | hier a segs =>
      rcases h with ⟨hsch, _, hq, hauth, _, hsegs⟩
      simp only at hsch hq hauth hsegs
      intro x hx
      rw [Url.render] at hx
      simp only [] at hx
      rcases List.mem_append.mp hx with h1 | h2
      · exact Nat.lt_of_le_of_lt (schemeOK_le hsch x h1) (by omega)
      · rcases List.mem_cons.mp h2 with rfl | h3
        · omega
        · rcases List.mem_append.mp h3 with h4 | h5
          · rcases List.mem_cons.mp h4 with rfl | h6
            · omega
            · rcases List.mem_cons.mp h6 with rfl | h7
              · omega
              · rcases List.mem_append.mp h7 with h8 | h9
                · exact renderAuth_lt hauth x h8
                · rw [Url.renderPath] at h9
                  rcases List.mem_cons.mp h9 with rfl | h10
                  · omega
                  · rcases Url.mem_intercalate h10 with rfl | ⟨seg, hs, hxs⟩
                    · omega
                    · have hso := hsegs seg hs
                      rw [segOK, Bool.and_eq_true, Bool.and_eq_true] at hso
                      have hall := hso.1.1
                      rw [List.all_eq_true] at hall
                      have h11 := hall x hxs
                      rw [segCharOK] at h11
                      simp only [decide_eq_true_eq] at h11
                      omega
          · exact renderQuery_lt hq x h5

@[simp] theorem getGroup_nil (k : RStr) : Util.getGroup [] k = [] := rfl

theorem magnetPairs_lt (m : MagnetLink)
    (hrs : ∀ u ∈ m.rs, Url.WF u) (hws : ∀ u ∈ m.ws, Url.WF u)
    (hbt : ∀ b, m.btmh = some b → ∀ x ∈ b, x < 256)
    (hdn : ∀ d, m.dn = some d → ∀ x ∈ d, x < 256) :
    ∀ p ∈ MagnetLink.magnetPairs m, (∀ x ∈ p.1, x < 256) ∧ (∀ x ∈ p.2, x < 256) := by
  intro p hp
  rw [MagnetLink.magnetPairs] at hp
  rcases List.mem_cons.mp hp with rfl | hp2
  · refine ⟨(by decide : ∀ x ∈ bstr ("xt"), x < 256), ?_⟩
    intro x hx
    rw [UrlMod.cidUrnStr] at hx
    rcases List.mem_append.mp hx with h | h
    · exact (by decide : ∀ x ∈ bstr ("urn:cid:"), x < 256) x h
    · exact toText_lt m.cid x h
  · rcases List.mem_append.mp hp2 with hp3 | hws2
    · rcases List.mem_append.mp hp3 with hp4 | hrs2
      · rcases List.mem_append.mp hp4 with hbt2 | hdn2
        · cases hb : m.btmh with
          | none =>
              rw [hb] at hbt2
              simp only [Option.elim] at hbt2
              simp at hbt2
          | some b =>
              rw [hb] at hbt2
              simp only [Option.elim] at hbt2
              rcases List.mem_singleton.mp hbt2 with rfl
              refine ⟨(by decide : ∀ x ∈ bstr ("xt"), x < 256), ?_⟩
              intro x hx
              rw [UrlMod.into_btmh_urn_str] at hx
              rcases List.mem_append.mp hx with h | h
              · exact (by decide : ∀ x ∈ bstr ("urn:btmh:"), x < 256) x h
              · exact hbt b hb x h
        · cases hd : m.dn with
          | none =>
              rw [hd] at hdn2
              simp only [Option.elim] at hdn2
              simp at hdn2
          | some d =>
              rw [hd] at hdn2
              simp only [Option.elim] at hdn2
              rcases List.mem_singleton.mp hdn2 with rfl
              exact ⟨(by decide : ∀ x ∈ bstr ("dn"), x < 256), hdn d hd⟩
      · rcases List.mem_map.mp hrs2 with ⟨u, hu, rfl⟩
        exact ⟨(by decide : ∀ x ∈ bstr ("rs"), x < 256), render_lt (hrs u hu)⟩
    · rcases List.mem_map.mp hws2 with ⟨u, hu, rfl⟩
      exact ⟨(by decide : ∀ x ∈ bstr ("ws"), x < 256), render_lt (hws u hu)⟩

theorem magnetPairs_xt (m : MagnetLink) :
    Util.getGroup (MagnetLink.magnetPairs m) (bstr ("xt")) =
      UrlMod.cidUrnStr m.cid ::
        m.btmh.elim [] (fun b => [UrlMod.into_btmh_urn_str b]) := by
  rw [MagnetLink.magnetPairs, getGroup_cons, if_pos rfl,
    getGroup_append, getGroup_append, getGroup_append,
    getGroup_map_ne _ _ _ _ (by decide : ¬(bstr ("rs") = bstr ("xt"))),
    getGroup_map_ne _ _ _ _ (by decide : ¬(bstr ("ws") = bstr ("xt")))]
  cases m.btmh with
  | none =>
      cases m.dn with
      | none => simp
      | some d =>
          simp only [Option.elim]
          rw [getGroup_cons, if_neg (by decide : ¬(bstr ("dn") = bstr ("xt")))]
          simp
  | some b =>
      simp only [Option.elim]
      rw [getGroup_cons, if_pos rfl]
      cases m.dn with
      | none => simp
      | some d =>
          simp only [Option.elim]
          rw [getGroup_cons, if_neg (by decide : ¬(bstr ("dn") = bstr ("xt")))]
          simp

theorem magnetPairs_rs (m : MagnetLink) :
    Util.getGroup (MagnetLink.magnetPairs m) (bstr ("rs")) = m.rs.map Url.render := by
  rw [MagnetLink.magnetPairs, getGroup_cons,
    if_neg (by decide : ¬(bstr ("xt") = bstr ("rs"))),
    getGroup_append, getGroup_append, getGroup_append,
    getGroup_map_eq,
    getGroup_map_ne _ _ _ _ (by decide : ¬(bstr ("ws") = bstr ("rs")))]
  cases m.btmh with
  | none =>
      cases m.dn with
      | none => simp
      | some d =>
          simp only [Option.elim]
          rw [getGroup_cons, if_neg (by decide : ¬(bstr ("dn") = bstr ("rs")))]
          simp
  | some b =>
      simp only [Option.elim]
      rw [getGroup_cons, if_neg (by decide : ¬(bstr ("xt") = bstr ("rs")))]
      cases m.dn with
      | none => simp
      | some d =>
          simp only [Option.elim]
          rw [getGroup_cons, if_neg (by decide : ¬(bstr ("dn") = bstr ("rs")))]
          simp

theorem magnetPairs_ws (m : MagnetLink) :
    Util.getGroup (MagnetLink.magnetPairs m) (bstr ("ws")) = m.ws.map Url.render := by
  rw [MagnetLink.magnetPairs, getGroup_cons,
    if_neg (by decide : ¬(bstr ("xt") = bstr ("ws"))),
    getGroup_append, getGroup_append, getGroup_append,
    getGroup_map_eq,
    getGroup_map_ne _ _ _ _ (by decide : ¬(bstr ("rs") = bstr ("ws")))]
  cases m.btmh with
  | none =>
      cases m.dn with
      | none => simp
      | some d =>
          simp only [Option.elim]
          rw [getGroup_cons, if_neg (by decide : ¬(bstr ("dn") = bstr ("ws")))]
          simp
  | some b =>
      simp only [Option.elim]
      rw [getGroup_cons, if_neg (by decide : ¬(bstr ("xt") = bstr ("ws")))]
      cases m.dn with
      | none => simp
      | some d =>
          simp only [Option.elim]
          rw [getGroup_cons, if_neg (by decide : ¬(bstr ("dn") = bstr ("ws")))]
          simp

theorem magnetPairs_dn (m : MagnetLink) :
    Util.getGroup (MagnetLink.magnetPairs m) (bstr ("dn")) =
      m.dn.elim [] (fun d => [d]) := by
  rw [MagnetLink.magnetPairs, getGroup_cons,
    if_neg (by decide : ¬(bstr ("xt") = bstr ("dn"))),
    getGroup_append, getGroup_append, getGroup_append,
    getGroup_map_ne _ _ _ _ (by decide : ¬(bstr ("rs") = bstr ("dn"))),
    getGroup_map_ne _ _ _ _ (by decide : ¬(bstr ("ws") = bstr ("dn")))]
  cases m.btmh with
  | none =>
      cases m.dn with
      | none => simp
      | some d =>
          simp only [Option.elim]
          rw [getGroup_cons, if_pos rfl]
          simp
  | some b =>
      simp only [Option.elim]
      rw [getGroup_cons, if_neg (by decide : ¬(bstr ("xt") = bstr ("dn")))]
      cases m.dn with
      | none => simp
      | some d =>
          simp only [Option.elim]
          rw [getGroup_cons, if_pos rfl]
          simp

/-- C8: the magnet round-trip.  For every MagnetLink value m whose ws and
rs entries are well-formed (absolute) URLs and whose btmh/dn strings hold
bytes, `MagnetLink.parse (MagnetLink.toText m) = some m`: serializing the
link as `magnet:?` plus form-urlencoded pairs and re-parsing recovers the
cid, rs, ws, btmh and dn fields exactly, with list order respected. -/
theorem C8_magnet_roundtrip (m : MagnetLink)
    (hrs : ∀ u ∈ m.rs, Url.WF u) (hws : ∀ u ∈ m.ws, Url.WF u)
    (hbt : ∀ b, m.btmh = some b → ∀ x ∈ b, x < 256)
    (hdn : ∀ d, m.dn = some d → ∀ x ∈ d, x < 256) :
    MagnetLink.parse (MagnetLink.toText m) = some m := by
  have hwf : Url.WF (MagnetLink.toUrl m) := by
    refine ⟨(by decide : schemeOK (bstr ("magnet")) = true),
      (by decide : (bstr ("magnet")).map Base32.lowerByte = bstr ("magnet")), ?_,
      (by decide : ([] : RStr).all cnbCharOK = true),
      (by decide : isSpecialScheme (bstr ("magnet")) = false),
      (by decide : ¬(([] : RStr).take 2 = [47, 47]))⟩
    intro q hq
    have hq2 : Form.renderPairs (MagnetLink.magnetPairs m) = q := Option.some.inj hq
    rw [← hq2]
    exact renderPairs_queryOK _ (magnetPairs_lt m hrs hws hbt hdn)
  have hparse : Url.parse (MagnetLink.toText m) = some (MagnetLink.toUrl m) :=
    Url.parse_render _ hwf
  have hpp : Form.parsePairs ((MagnetLink.toUrl m).query.elim [] (fun q => q)) =
      MagnetLink.magnetPairs m :=
    Form.parsePairs_renderPairs _ (magnetPairs_lt m hrs hws hbt hdn)
  have hbtf : (m.btmh.elim [] (fun b =>
      [UrlMod.into_btmh_urn_str b])).findSome? UrlMod.parse_btmh_urn_str = m.btmh := by
    cases m.btmh with
    | none => rfl
    | some b =>
        simp only [Option.elim]
        rw [List.findSome?_cons, UrlMod.parse_btmh_urn_str_into]
  have hdnh : (m.dn.elim [] (fun d => [d])).head? = m.dn := by
    cases m.dn <;> rfl
  rw [MagnetLink.parse, hparse, Option.some_bind]
  simp only [hpp]
  rw [magnetPairs_xt, magnetPairs_rs, magnetPairs_ws, magnetPairs_dn]
  rw [if_neg (List.cons_ne_nil _ _)]
  rw [List.findSome?_cons, UrlMod.parse_cid_urn_str_cidUrnStr]
  rw [List.findSome?_cons, UrlMod.parse_btmh_urn_str_cidUrnStr]
  rw [hbtf, filterMap_parse_render m.rs hrs, filterMap_parse_render m.ws hws, hdnh]
  rfl

def c8Magnet : MagnetLink :=
  ⟨c3Cid, [], [], some (bstr ("d41d8cd98f00b204e9800998ecf8427e")),
    some (bstr ("example_file"))⟩

theorem C8_magnet_roundtrip_witness :
    MagnetLink.parse (MagnetLink.toText c8Magnet) = some c8Magnet := by
  exact C8_magnet_roundtrip c8Magnet
    (fun u hu => absurd hu (List.not_mem_nil u))
    (fun u hu => absurd hu (List.not_mem_nil u))
    (fun b hb => (Option.some.inj hb) ▸
      (by decide : ∀ x ∈ bstr ("d41d8cd98f00b204e9800998ecf8427e"), x < 256))
    (fun d hd => (Option.some.inj hd) ▸
      (by decide : ∀ x ∈ bstr ("example_file"), x < 256))
